import Mathlib

/- Shallow embedding of the cyber-network simulation repository
(network_generation.py and strategy_simulation.py) and proofs about it.

Modelling conventions:
* A Python Node object becomes the structure Node.  Object identity becomes
  the position of the node in the list embedding graph.nodes, and all node
  mutation is threaded explicitly through TrialState.
* The graph adjacency (graph.neighbors) is a fixed parameter
  adj : List (List Nat) giving, for each node index, the neighbor indices in
  provider order; deg_deg_trial then imposes its own centrality-descending
  order, as the source does.
* Python ints and floats carrying budgets and probabilities become Rat.  The
  source float literals 0.05, 0.5, 0.7, 0.75, 0.25, 0.9 are modelled as the
  exact rationals they denote in the source text.
* random.random() becomes an explicit draw stream rng : Nat -> Rat together
  with a counter (rngIndex) that advances exactly where the source draws.
* The while loop of deg_deg_trial is embedded with explicit fuel; the fuel
  spreadMeasure s + 1 is proved sufficient (the loop condition is false at
  the returned state), so the embedding computes the same fixpoint the
  Python while loop reaches.
* A trial additionally records an event log (direct / indirect compromise
  resolutions and queue pops).  The log is pure instrumentation: it is
  write-only and never influences control flow.
* Out-of-range index lookups cannot occur in Python (neighbors and queue
  entries are genuine graph nodes); the total function getNode returns a
  sentinel marked is_attacked := true so that ill-formed adjacency cannot
  inject phantom nodes into a run.
* Fallible code returns Option: assign_attack_values raises IndexError when
  the direct attack budget exceeds the node count (sorted_nodes[i] with i
  out of range); this is modelled as none.  Python mutates earlier indices
  before raising, but the exception propagates out of the allocation, so the
  partially mutated state is unobservable and is not modelled.
* Graph generation, centrality computation and connectivity checking are the
  external graph provider (out of scope per the specification); everything
  downstream of a ranked node list is embedded. -/

/-- One network asset, as built by Node.__init__ in network_generation.py:
defense_value and attack_value start at 0, is_attacked and is_compromised
start False, centrality_value is attached by the centrality oracle. -/
structure Node where
  name : ℕ
  defense_value : ℕ
  attack_value : ℕ
  centrality_value : ℚ
  is_attacked : Bool
  is_compromised : Bool
deriving DecidableEq

/-- Sentinel returned by getNode for an out-of-range index.  Python cannot
reach it; it is marked attacked so that it can never be enqueued. -/
def sentinelNode : Node :=
  { name := 0, defense_value := 0, attack_value := 0, centrality_value := 0,
    is_attacked := true, is_compromised := false }

/-- Dereference a node object by its identity (position in the node list). -/
def getNode (nodes : List Node) (i : ℕ) : Node :=
  nodes.getD i sentinelNode

/-- Instrumentation record of one observable action of a trial: a direct
compromise resolution, an indirect compromise resolution (attacker, target,
threshold), or a queue pop. -/
inductive Event where
  | direct (target : ℕ) (p : ℚ)
  | indirect (attacker : ℕ) (target : ℕ) (p : ℚ)
  | pop (target : ℕ)
deriving DecidableEq

/-- The mutable state of one trial: the node objects, the attack budget
ledger, the attack queue (node indices), the position in the random draw
stream, and the instrumentation log. -/
structure TrialState where
  nodes : List Node
  budget : ℚ
  targets : List ℕ
  rngIndex : ℕ
  log : List Event
deriving DecidableEq

/-- Insert x into a list already sorted by key descending, before the first
element whose key is less than or equal to key x.  Helper for sortDescBy. -/
def insertDescBy {α : Type} (key : α → ℚ) (x : α) : List α → List α
  | [] => [x]
  | y :: ys => if key y ≤ key x then x :: y :: ys else y :: insertDescBy key x ys

/-- Stable descending sort by a rational key: the embedding of the Python
idiom sorted(xs, key=..., reverse=True), which is stable and orders by key
descending. -/
def sortDescBy {α : Type} (key : α → ℚ) : List α → List α
  | [] => []
  | x :: xs => insertDescBy key x (sortDescBy key xs)

/-- network_generation.calc_direct_attack_budget: math.ceil(0.05 * attack_budget). -/
def calc_direct_attack_budget (attack_budget : ℚ) : ℤ :=
  ⌈(0.05 : ℚ) * attack_budget⌉

/-- network_generation.sort_by_centrality: sorted(graph.nodes,
key=centrality_value, reverse=True). -/
def sort_by_centrality (nodes : List Node) : List Node :=
  sortDescBy (fun nd => nd.centrality_value) nodes

/-- network_generation.assign_defense_values: clamp the defense budget to the
node count, then set defense_value = 1 on the first defense_budget nodes of
the ranked list.  Python range(b) of a non-positive b is empty, hence toNat. -/
def assign_defense_values (sorted_nodes : List Node) (defense_budget : ℤ) : List Node :=
  let b : ℤ :=
    if (sorted_nodes.length : ℤ) < defense_budget then (sorted_nodes.length : ℤ)
    else defense_budget
  (sorted_nodes.take b.toNat).map (fun nd => { nd with defense_value := 1 }) ++
    sorted_nodes.drop b.toNat

/-- network_generation.assign_attack_values: mark the first
calc_direct_attack_budget(attack_budget) ranked nodes (attack_value = 1,
is_attacked = True).  The Python loop indexes sorted_nodes[i] and raises
IndexError when the direct attack budget exceeds the node count: modelled
as none. -/
def assign_attack_values (sorted_nodes : List Node) (attack_budget : ℚ) :
    Option (List Node) :=
  let d := (calc_direct_attack_budget attack_budget).toNat
  if d ≤ sorted_nodes.length then
    some ((sorted_nodes.take d).map
        (fun nd => { nd with attack_value := 1, is_attacked := true }) ++
      sorted_nodes.drop d)
  else none

/-- Embedding of nx.get_node_attributes(graph, "is_compromised").values().
networkx reads the per-node attribute dictionaries of the graph object.  The
repository stores all node state on the Node Python objects (set in
Node.__init__ and by plain attribute assignment) and never writes through the
networkx attribute interface, so the attribute store holds no is_compromised
entries for any node and the returned mapping is empty for every graph. -/
def get_node_attributes_is_compromised (_graph : List Node) : List Bool := []

/-- strategy_simulation.check_trial_conditions, exactly as written: the
all(...) of the (always empty) attribute mapping, conjoined with
attack_budget > 0. -/
def check_trial_conditions (graph : List Node) (attack_budget : ℚ) : Bool :=
  let network_not_compromised := (get_node_attributes_is_compromised graph).all id
  let has_attack_budget := decide (0 < attack_budget)
  has_attack_budget && network_not_compromised

/-- Modelled from the spec: the continuation predicate as documented both in
the specification and in the docstring of check_trial_conditions — continue
only while the attacker has budget remaining and at least one node in the
network has not been compromised.  Used solely to compare the source
predicate against its documented intent. -/
def check_trial_conditions_spec (graph : List Node) (attack_budget : ℚ) : Bool :=
  decide (0 < attack_budget) && graph.any (fun nd => !nd.is_compromised)

/-- Modelled from the spec: the direct-attack probability table (0.70 when
the target carries a defense unit, 0.90 otherwise). -/
def directProbSpec (defense : ℕ) : ℚ :=
  if defense = 1 then 0.7 else 0.9

/-- Modelled from the spec: the indirect-attack probability table keyed by
(attacker defenseValue, target defenseValue). -/
def indirectProbSpec (attackerDefense targetDefense : ℕ) : ℚ :=
  if attackerDefense = 0 ∧ targetDefense = 1 then 0.5
  else if attackerDefense = 1 ∧ targetDefense = 0 then 0.75
  else if attackerDefense = 1 ∧ targetDefense = 1 then 0.25
  else 0.9

/-- One iteration of the direct-attack resolution loop of
deg_deg_initial_attack: node.is_compromised = random.random() < 0.7 when the
node carries a defense unit, < 0.9 otherwise. -/
def directStep (rng : ℕ → ℚ) (s : TrialState) (i : ℕ) : TrialState :=
  let nd := getNode s.nodes i
  if nd.defense_value = 1 then
    { s with
      nodes := s.nodes.set i { nd with is_compromised := decide (rng s.rngIndex < (0.7 : ℚ)) },
      rngIndex := s.rngIndex + 1,
      log := s.log ++ [Event.direct i (0.7 : ℚ)] }
  else
    { s with
      nodes := s.nodes.set i { nd with is_compromised := decide (rng s.rngIndex < (0.9 : ℚ)) },
      rngIndex := s.rngIndex + 1,
      log := s.log ++ [Event.direct i (0.9 : ℚ)] }

/-- The node indices flagged is_attacked, in graph order: the list
comprehension [node for node in graph.nodes if node.is_attacked]. -/
def attackedIndices (nodes : List Node) : List ℕ :=
  (List.range nodes.length).filter (fun i => (getNode nodes i).is_attacked)

/-- strategy_simulation.deg_deg_initial_attack: deduct the direct attack
budget (computed from the original budget), collect the attacked nodes, sort
them by centrality descending into the queue, and resolve each direct attack
in graph order. -/
def deg_deg_initial_attack (rng : ℕ → ℚ) (nodes : List Node) (attack_budget : ℚ) :
    TrialState :=
  let budget := attack_budget - (calc_direct_attack_budget attack_budget : ℚ)
  let attacked := attackedIndices nodes
  let sorted_attacked := sortDescBy (fun i => (getNode nodes i).centrality_value) attacked
  attacked.foldl (directStep rng)
    { nodes := nodes, budget := budget, targets := sorted_attacked, rngIndex := 0, log := [] }

/-- The body shared by the four indirect resolution branches: set
target.is_compromised from a fresh draw against threshold p and log the
resolution. -/
def resolveIndirect (rng : ℕ → ℚ) (cur tgt : ℕ) (p : ℚ) (s : TrialState) : TrialState :=
  let t := getNode s.nodes tgt
  { s with
    nodes := s.nodes.set tgt { t with is_compromised := decide (rng s.rngIndex < p) },
    rngIndex := s.rngIndex + 1,
    log := s.log ++ [Event.indirect cur tgt p] }

/-- One iteration of the inner for-loop of deg_deg_trial over the sorted
neighbors of the popped node cur: if the trial conditions still hold and the
target is not yet attacked, mark it attacked, append it to the queue, deduct
0.5 from the ledger, and resolve the indirect attack through the four-branch
defense table of the source (a target with a defense value outside {0,1}
would fall through all four branches unresolved, exactly as in the source). -/
def innerStep (rng : ℕ → ℚ) (cur : ℕ) (s : TrialState) (tgt : ℕ) : TrialState :=
  let t := getNode s.nodes tgt
  if check_trial_conditions s.nodes s.budget && !t.is_attacked then
    let c := getNode s.nodes cur
    let base : TrialState :=
      { s with
        nodes := s.nodes.set tgt { t with is_attacked := true },
        targets := s.targets ++ [tgt],
        budget := s.budget - (0.5 : ℚ) }
    if t.defense_value = 1 && c.defense_value = 0 then
      resolveIndirect rng cur tgt (0.5 : ℚ) base
    else if t.defense_value = 0 && c.defense_value = 1 then
      resolveIndirect rng cur tgt (0.75 : ℚ) base
    else if t.defense_value = 1 && c.defense_value = 1 then
      resolveIndirect rng cur tgt (0.25 : ℚ) base
    else if t.defense_value = 0 && c.defense_value = 0 then
      resolveIndirect rng cur tgt (0.9 : ℚ) base
    else base
  else s

/-- One iteration of the while loop of deg_deg_trial: current_node =
targets.pop() removes the last list element; if it is compromised, its
neighbors are sorted by centrality descending and each is processed by
innerStep. -/
def spreadBody (adj : List (List ℕ)) (rng : ℕ → ℚ) (s : TrialState) : TrialState :=
  let cur := s.targets.getLastD 0
  let s0 : TrialState := { s with targets := s.targets.dropLast, log := s.log ++ [Event.pop cur] }
  if (getNode s0.nodes cur).is_compromised then
    let next_targets :=
      sortDescBy (fun i => (getNode s0.nodes i).centrality_value) (adj.getD cur [])
    next_targets.foldl (innerStep rng cur) s0
  else s0

/-- The while-loop condition of deg_deg_trial:
check_trial_conditions(graph, attack_budget) and len(targets) > 0. -/
def loopCond (s : TrialState) : Bool :=
  check_trial_conditions s.nodes s.budget && decide (0 < s.targets.length)

/-- The while loop of deg_deg_trial with explicit fuel. -/
def spreadLoopFuel (adj : List (List ℕ)) (rng : ℕ → ℚ) : ℕ → TrialState → TrialState
  | 0, s => s
  | fuel + 1, s => if loopCond s then spreadLoopFuel adj rng fuel (spreadBody adj rng s) else s

/-- Termination measure for the while loop: twice the number of nodes not yet
attacked plus the queue length.  Every iteration pops one queue entry and
every queue push marks a previously unattacked node. -/
def spreadMeasure (s : TrialState) : ℕ :=
  2 * s.nodes.countP (fun nd => !nd.is_attacked) + s.targets.length

/-- The while loop of deg_deg_trial, run with provably sufficient fuel. -/
def spreadLoop (adj : List (List ℕ)) (rng : ℕ → ℚ) (s : TrialState) : TrialState :=
  spreadLoopFuel adj rng (spreadMeasure s + 1) s

/-- strategy_simulation.deg_deg_trial, instrumented: the initial attack phase
followed by the indirect-spread while loop, returning the full final state. -/
def deg_deg_trial_run (adj : List (List ℕ)) (rng : ℕ → ℚ) (nodes : List Node)
    (attack_budget : ℚ) : TrialState :=
  spreadLoop adj rng (deg_deg_initial_attack rng nodes attack_budget)

/-- strategy_simulation.deg_deg_trial: the fraction of nodes compromised at
the end of the run (sum(1 for node if node.is_compromised) divided by the
node count). -/
def deg_deg_trial (adj : List (List ℕ)) (rng : ℕ → ℚ) (nodes : List Node)
    (attack_budget : ℚ) : ℚ :=
  let sf := deg_deg_trial_run adj rng nodes attack_budget
  ((sf.nodes.countP (fun nd => nd.is_compromised) : ℚ)) / (sf.nodes.length : ℚ)

/-- The targets of the compromise-resolution events of a log, in order. -/
def resolvedTargets : List Event → List ℕ
  | [] => []
  | Event.direct v _ :: es => v :: resolvedTargets es
  | Event.indirect _ v _ :: es => v :: resolvedTargets es
  | Event.pop _ :: es => resolvedTargets es

/-- The popped node indices of a log, in order. -/
def popEvents : List Event → List ℕ
  | [] => []
  | Event.pop v :: es => v :: popEvents es
  | _ :: es => popEvents es

/-- Whether an event is an indirect resolution. -/
def isIndirectEvent : Event → Bool
  | Event.indirect _ _ _ => true
  | _ => false

/-- All defense values in a node list are 0 or 1 (as produced by allocation). -/
def defenseBounded (nodes : List Node) : Prop :=
  ∀ v, (getNode nodes v).defense_value ≤ 1

/-- Every compromised node is attacked. -/
def compImpAtt (nodes : List Node) : Prop :=
  ∀ v, (getNode nodes v).is_compromised = true → (getNode nodes v).is_attacked = true

/-- Every queue entry is a valid, attacked node index. -/
def queueOk (s : TrialState) : Prop :=
  ∀ i ∈ s.targets, i < s.nodes.length ∧ (getNode s.nodes i).is_attacked = true

/-- The resolution events hit pairwise distinct nodes, and a node has a
resolution event exactly when it is an attacked node of the graph. -/
def logOk (s : TrialState) : Prop :=
  (resolvedTargets s.log).Nodup ∧
  ∀ i, i ∈ resolvedTargets s.log ↔
    (i < s.nodes.length ∧ (getNode s.nodes i).is_attacked = true)

/-- Every logged resolution used exactly the probability threshold of the
specification tables for the defense values of the nodes involved. -/
def thresholdsOk (s : TrialState) : Prop :=
  ∀ e ∈ s.log,
    (∀ v p, e = Event.direct v p → p = directProbSpec (getNode s.nodes v).defense_value) ∧
    (∀ c v p, e = Event.indirect c v p →
      p = indirectProbSpec (getNode s.nodes c).defense_value
        (getNode s.nodes v).defense_value)

/-- The master invariant of the indirect-spread loop. -/
structure LoopInv (s : TrialState) : Prop where
  defb : defenseBounded s.nodes
  ca : compImpAtt s.nodes
  qok : queueOk s
  lok : logOk s
  tok : thresholdsOk s

/-- The attack budget ledger is a non-negative half-integer. -/
def ledgerOk (q : ℚ) : Prop := 0 ≤ q ∧ ∃ z : ℤ, q = (z : ℚ) / 2

/-- Constant draw stream used for concrete runs (every draw is 0, below
every threshold, so every resolved attack compromises its target). -/
def rngZero : ℕ → ℚ := fun _ => 0

/-- A fresh, never attacked node of centrality 1. -/
def freshNode : Node :=
  { name := 0, defense_value := 0, attack_value := 0, centrality_value := 1,
    is_attacked := false, is_compromised := false }

/-- A directly attacked node of centrality 2 (post-allocation state). -/
def cNodeHi : Node :=
  { name := 0, defense_value := 0, attack_value := 1, centrality_value := 2,
    is_attacked := true, is_compromised := false }

/-- A directly attacked node of centrality 1 (post-allocation state). -/
def cNodeLo : Node :=
  { name := 1, defense_value := 0, attack_value := 1, centrality_value := 1,
    is_attacked := true, is_compromised := false }

/-- An undefended node of centrality 2 for the allocation witness. -/
def wNodeHi : Node :=
  { name := 0, defense_value := 0, attack_value := 0, centrality_value := 2,
    is_attacked := false, is_compromised := false }

/-- An undefended node of centrality 1 for the allocation witness. -/
def wNodeLo : Node :=
  { name := 1, defense_value := 0, attack_value := 0, centrality_value := 1,
    is_attacked := false, is_compromised := false }

/-- The concrete mid-trial state used to witness C2_queue_pop_last. -/
def c2State : TrialState :=
  { nodes := [cNodeHi, cNodeLo], budget := 38, targets := [0, 1], rngIndex := 2, log := [] }

/-- A compromised, attacked node for the C8 witness state. -/
def c8Node : Node :=
  { name := 0, defense_value := 0, attack_value := 1, centrality_value := 1,
    is_attacked := true, is_compromised := true }

/-- The concrete fully-compromised mid-trial state used to witness C8. -/
def c8State : TrialState :=
  { nodes := [c8Node], budget := 7, targets := [0], rngIndex := 1, log := [] }

theorem set_of_length_le {α : Type} (l : List α) (i : ℕ) (x : α) (h : l.length ≤ i) :
    l.set i x = l := by
  induction l generalizing i with
  | nil => rfl
  | cons a t ih =>
    cases i with
    | zero => simp at h
    | succ j => simp only [List.set]; rw [ih j (by simpa using h)]

theorem getNode_set_self (nodes : List Node) (i : ℕ) (x : Node) (h : i < nodes.length) :
    getNode (nodes.set i x) i = x := by
  induction nodes generalizing i with
  | nil => simp at h
  | cons a t ih =>
    cases i with
    | zero => simp [getNode]
    | succ j =>
      simp only [List.set, getNode, List.getD_cons_succ]
      exact ih j (by simpa using h)

theorem getNode_set_ne (nodes : List Node) (i j : ℕ) (x : Node) (h : j ≠ i) :
    getNode (nodes.set i x) j = getNode nodes j := by
  induction nodes generalizing i j with
  | nil => rfl
  | cons a t ih =>
    cases i with
    | zero =>
      cases j with
      | zero => exact absurd rfl h
      | succ jj => simp [getNode]
    | succ ii =>
      cases j with
      | zero => simp [getNode]
      | succ jj =>
        simp only [List.set, getNode, List.getD_cons_succ]
        exact ih ii jj (fun e => h (by rw [e]))

theorem getNode_of_length_le (nodes : List Node) (i : ℕ) (h : nodes.length ≤ i) :
    getNode nodes i = sentinelNode := by
  simp [getNode, List.getD_eq_getElem?_getD, List.getElem?_eq_none (by simpa using h)]

theorem countP_set_eq (p : Node → Bool) (nodes : List Node) (i : ℕ) (x : Node)
    (h : i < nodes.length) :
    (nodes.set i x).countP p + (if p (getNode nodes i) then 1 else 0) =
      nodes.countP p + (if p x then 1 else 0) := by
  induction nodes generalizing i with
  | nil => simp at h
  | cons a t ih =>
    cases i with
    | zero =>
      simp only [List.set, List.countP_cons, getNode, List.getD_cons_zero]
      omega
    | succ j =>
      simp only [List.set, List.countP_cons, getNode, List.getD_cons_succ]
      have := ih j (by simpa using h)
      simp only [getNode] at this
      omega

theorem mem_of_mem_set {α : Type} (l : List α) (i : ℕ) (x y : α)
    (h : y ∈ l.set i x) : y ∈ l ∨ y = x := by
  induction l generalizing i with
  | nil => simp at h
  | cons a t ih =>
    cases i with
    | zero =>
      rcases List.mem_cons.mp h with h | h
      · right; exact h
      · left; exact List.mem_cons_of_mem _ h
    | succ j =>
      rcases List.mem_cons.mp h with h | h
      · left; rw [h]; exact List.mem_cons_self _ _
      · rcases ih j h with h2 | h2
        · left; exact List.mem_cons_of_mem _ h2
        · right; exact h2

theorem getLastD_mem {α : Type} (l : List α) (d : α) (h : l ≠ []) : l.getLastD d ∈ l := by
  induction l generalizing d with
  | nil => exact absurd rfl h
  | cons a t ih =>
    cases t with
    | nil => simp
    | cons b u =>
      rw [List.getLastD_cons]
      exact List.mem_cons_of_mem _ (ih a (by simp))

theorem mem_insertDescBy {α : Type} (key : α → ℚ) (x : α) (l : List α) (y : α) :
    y ∈ insertDescBy key x l ↔ y = x ∨ y ∈ l := by
  induction l with
  | nil => simp [insertDescBy]
  | cons a t ih =>
    simp only [insertDescBy]
    split
    · simp [or_comm, or_assoc, or_left_comm]
    · simp only [List.mem_cons, ih]
      tauto

theorem mem_sortDescBy {α : Type} (key : α → ℚ) (l : List α) (y : α) :
    y ∈ sortDescBy key l ↔ y ∈ l := by
  induction l with
  | nil => simp [sortDescBy]
  | cons a t ih => simp [sortDescBy, mem_insertDescBy, ih]

theorem pairwise_insertDescBy {α : Type} (key : α → ℚ) (x : α) (l : List α)
    (h : l.Pairwise (fun a b => key b ≤ key a)) :
    (insertDescBy key x l).Pairwise (fun a b => key b ≤ key a) := by
  induction l with
  | nil => simp [insertDescBy]
  | cons a t ih =>
    rcases List.pairwise_cons.mp h with ⟨ha, ht⟩
    simp only [insertDescBy]
    split
    · rename_i hle
      refine List.pairwise_cons.mpr ⟨?_, h⟩
      intro b hb
      rcases List.mem_cons.mp hb with hb | hb
      · rw [hb]; exact hle
      · exact le_trans (ha b hb) hle
    · rename_i hgt
      refine List.pairwise_cons.mpr ⟨?_, ih ht⟩
      intro b hb
      rcases (mem_insertDescBy key x t b).mp hb with hb | hb
      · subst hb; exact le_of_not_le hgt
      · exact ha b hb

theorem pairwise_sortDescBy {α : Type} (key : α → ℚ) (l : List α) :
    (sortDescBy key l).Pairwise (fun a b => key b ≤ key a) := by
  induction l with
  | nil => simp [sortDescBy]
  | cons a t ih => exact pairwise_insertDescBy key a _ ih

theorem resolvedTargets_append (l1 l2 : List Event) :
    resolvedTargets (l1 ++ l2) = resolvedTargets l1 ++ resolvedTargets l2 := by
  induction l1 with
  | nil => rfl
  | cons e t ih => cases e <;> simp [resolvedTargets, ih]

theorem popEvents_append (l1 l2 : List Event) :
    popEvents (l1 ++ l2) = popEvents l1 ++ popEvents l2 := by
  induction l1 with
  | nil => rfl
  | cons e t ih => cases e <;> simp [popEvents, ih]

theorem check_trial_conditions_iff (g : List Node) (b : ℚ) :
    check_trial_conditions g b = true ↔ 0 < b := by
  simp [check_trial_conditions, get_node_attributes_is_compromised]

theorem getNode_mem (nodes : List Node) (v : ℕ) (h : v < nodes.length) :
    getNode nodes v ∈ nodes := by
  induction nodes generalizing v with
  | nil => simp at h
  | cons a t ih =>
    cases v with
    | zero => simp [getNode]
    | succ j =>
      simp only [getNode, List.getD_cons_succ]
      exact List.mem_cons_of_mem _ (ih j (by simpa using h))

theorem directStep_cases (rng : ℕ → ℚ) (s : TrialState) (i : ℕ) :
    ∃ x : Node,
      x.is_attacked = (getNode s.nodes i).is_attacked ∧
      x.defense_value = (getNode s.nodes i).defense_value ∧
      (directStep rng s i).nodes = s.nodes.set i x ∧
      (directStep rng s i).budget = s.budget ∧
      (directStep rng s i).targets = s.targets ∧
      (directStep rng s i).log =
        s.log ++ [Event.direct i (directProbSpec (getNode s.nodes i).defense_value)] := by
  simp only [directStep]
  split
  · rename_i hd
    exact ⟨{ getNode s.nodes i with is_compromised := decide (rng s.rngIndex < (0.7 : ℚ)) },
      rfl, rfl, rfl, rfl, rfl, by simp [directProbSpec, hd]⟩
  · rename_i hd
    exact ⟨{ getNode s.nodes i with is_compromised := decide (rng s.rngIndex < (0.9 : ℚ)) },
      rfl, rfl, rfl, rfl, rfl, by simp [directProbSpec, hd]⟩

theorem innerStep_cases (rng : ℕ → ℚ) (cur : ℕ) (s : TrialState) (tgt : ℕ) :
    innerStep rng cur s tgt = s ∨
    ((getNode s.nodes tgt).is_attacked = false ∧ tgt < s.nodes.length ∧
      0 < s.budget ∧
      ∃ x : Node, ∃ ext : List Event,
        x.is_attacked = true ∧
        x.defense_value = (getNode s.nodes tgt).defense_value ∧
        (innerStep rng cur s tgt).nodes = s.nodes.set tgt x ∧
        (innerStep rng cur s tgt).targets = s.targets ++ [tgt] ∧
        (innerStep rng cur s tgt).budget = s.budget - (0.5 : ℚ) ∧
        (innerStep rng cur s tgt).log = s.log ++ ext ∧
        ((ext = [] ∧ x.is_compromised = (getNode s.nodes tgt).is_compromised ∧
            ¬((getNode s.nodes tgt).defense_value ≤ 1 ∧
              (getNode s.nodes cur).defense_value ≤ 1)) ∨
          ext = [Event.indirect cur tgt
            (indirectProbSpec (getNode s.nodes cur).defense_value
              (getNode s.nodes tgt).defense_value)])) := by
  simp only [innerStep]
  split
  · rename_i h
    rw [Bool.and_eq_true, Bool.not_eq_true'] at h
    obtain ⟨hchk, hatt⟩ := h
    right
    have hlen : tgt < s.nodes.length := by
      by_contra hc
      rw [getNode_of_length_le _ _ (le_of_not_lt hc)] at hatt
      simp [sentinelNode] at hatt
    refine ⟨hatt, hlen, (check_trial_conditions_iff _ _).mp hchk, ?_⟩
    split_ifs with h1 h2 h3 h4
    · rw [Bool.and_eq_true, decide_eq_true_iff, decide_eq_true_iff] at h1
      refine ⟨{ getNode s.nodes tgt with
                  is_attacked := true
                  is_compromised := decide (rng s.rngIndex < (0.5 : ℚ)) },
              [Event.indirect cur tgt (0.5 : ℚ)], rfl, rfl, ?_, rfl, rfl,
              by simp [resolveIndirect], Or.inr ?_⟩
      · simp only [resolveIndirect]
        rw [getNode_set_self s.nodes tgt _ hlen, List.set_set]
      · rw [indirectProbSpec, if_pos ⟨h1.2, h1.1⟩]
    · rw [Bool.and_eq_true, decide_eq_true_iff, decide_eq_true_iff] at h2
      simp only [Bool.and_eq_true, decide_eq_true_iff, not_and] at h1
      refine ⟨{ getNode s.nodes tgt with
                  is_attacked := true
                  is_compromised := decide (rng s.rngIndex < (0.75 : ℚ)) },
              [Event.indirect cur tgt (0.75 : ℚ)], rfl, rfl, ?_, rfl, rfl,
              by simp [resolveIndirect], Or.inr ?_⟩
      · simp only [resolveIndirect]
        rw [getNode_set_self s.nodes tgt _ hlen, List.set_set]
      · rw [indirectProbSpec, if_neg (by omega), if_pos ⟨h2.2, h2.1⟩]
    · rw [Bool.and_eq_true, decide_eq_true_iff, decide_eq_true_iff] at h3
      simp only [Bool.and_eq_true, decide_eq_true_iff, not_and] at h1 h2
      refine ⟨{ getNode s.nodes tgt with
                  is_attacked := true
                  is_compromised := decide (rng s.rngIndex < (0.25 : ℚ)) },
              [Event.indirect cur tgt (0.25 : ℚ)], rfl, rfl, ?_, rfl, rfl,
              by simp [resolveIndirect], Or.inr ?_⟩
      · simp only [resolveIndirect]
        rw [getNode_set_self s.nodes tgt _ hlen, List.set_set]
      · rw [indirectProbSpec, if_neg (by omega), if_neg (by omega), if_pos ⟨h3.2, h3.1⟩]
    · rw [Bool.and_eq_true, decide_eq_true_iff, decide_eq_true_iff] at h4
      simp only [Bool.and_eq_true, decide_eq_true_iff, not_and] at h1 h2 h3
      refine ⟨{ getNode s.nodes tgt with
                  is_attacked := true
                  is_compromised := decide (rng s.rngIndex < (0.9 : ℚ)) },
              [Event.indirect cur tgt (0.9 : ℚ)], rfl, rfl, ?_, rfl, rfl,
              by simp [resolveIndirect], Or.inr ?_⟩
      · simp only [resolveIndirect]
        rw [getNode_set_self s.nodes tgt _ hlen, List.set_set]
      · rw [indirectProbSpec, if_neg (by omega), if_neg (by omega), if_neg (by omega)]
    · simp only [Bool.and_eq_true, decide_eq_true_iff, not_and] at h1 h2 h3 h4
      refine ⟨{ getNode s.nodes tgt with is_attacked := true }, [],
              rfl, rfl, rfl, rfl, rfl, by simp, Or.inl ⟨rfl, rfl, ?_⟩⟩
      rintro ⟨ht, hc⟩
      have ht01 : (getNode s.nodes tgt).defense_value = 0 ∨
          (getNode s.nodes tgt).defense_value = 1 := by omega
      have hc01 : (getNode s.nodes cur).defense_value = 0 ∨
          (getNode s.nodes cur).defense_value = 1 := by omega
      rcases ht01 with ht0 | ht1 <;> rcases hc01 with hc0 | hc1
      · exact h4 ht0 hc0
      · exact h2 ht0 hc1
      · exact h1 ht1 hc0
      · exact h3 ht1 hc1
  · left; rfl

theorem foldl_innerStep_preserve (P : TrialState → Prop) (rng : ℕ → ℚ) (cur : ℕ)
    (hP : ∀ s tgt, P s → P (innerStep rng cur s tgt)) :
    ∀ (l : List ℕ) (s : TrialState), P s → P (l.foldl (innerStep rng cur) s) := by
  intro l
  induction l with
  | nil => intro s h; exact h
  | cons a t ih => intro s h; exact ih _ (hP s a h)

theorem spreadLoopFuel_preserve (adj : List (List ℕ)) (rng : ℕ → ℚ) (P : TrialState → Prop)
    (hP : ∀ s, P s → loopCond s = true → P (spreadBody adj rng s)) :
    ∀ (fuel : ℕ) (s : TrialState), P s → P (spreadLoopFuel adj rng fuel s) := by
  intro fuel
  induction fuel with
  | zero => intro s h; exact h
  | succ f ih =>
    intro s h
    simp only [spreadLoopFuel]
    split
    · rename_i hc; exact ih _ (hP s h hc)
    · exact h

theorem getNode_set_defense (nodes : List Node) (i : ℕ) (x : Node)
    (hx : x.defense_value = (getNode nodes i).defense_value) (v : ℕ) :
    (getNode (nodes.set i x) v).defense_value = (getNode nodes v).defense_value := by
  by_cases hv : v = i
  · subst hv
    by_cases hl : v < nodes.length
    · rw [getNode_set_self _ _ _ hl, hx]
    · rw [set_of_length_le _ _ _ (le_of_not_lt hl)]
  · rw [getNode_set_ne _ _ _ _ hv]

theorem getNode_set_att_mono (nodes : List Node) (i : ℕ) (x : Node)
    (hx : x.is_attacked = true) (v : ℕ)
    (h : (getNode nodes v).is_attacked = true) :
    (getNode (nodes.set i x) v).is_attacked = true := by
  by_cases hv : v = i
  · subst hv
    by_cases hl : v < nodes.length
    · rw [getNode_set_self _ _ _ hl]; exact hx
    · rw [set_of_length_le _ _ _ (le_of_not_lt hl)]; exact h
  · rw [getNode_set_ne _ _ _ _ hv]; exact h

theorem innerStep_length (rng : ℕ → ℚ) (cur : ℕ) (s : TrialState) (tgt : ℕ) :
    (innerStep rng cur s tgt).nodes.length = s.nodes.length := by
  rcases innerStep_cases rng cur s tgt with h | ⟨_, _, _, x, ext, _, _, hn, _⟩
  · rw [h]
  · rw [hn, List.length_set]

theorem innerStep_defense (rng : ℕ → ℚ) (cur : ℕ) (s : TrialState) (tgt v : ℕ) :
    (getNode (innerStep rng cur s tgt).nodes v).defense_value =
      (getNode s.nodes v).defense_value := by
  rcases innerStep_cases rng cur s tgt with h | ⟨_, _, _, x, ext, _, hxd, hn, _⟩
  · rw [h]
  · rw [hn]; exact getNode_set_defense _ _ _ hxd v

theorem innerStep_att_mono (rng : ℕ → ℚ) (cur : ℕ) (s : TrialState) (tgt v : ℕ)
    (h : (getNode s.nodes v).is_attacked = true) :
    (getNode (innerStep rng cur s tgt).nodes v).is_attacked = true := by
  rcases innerStep_cases rng cur s tgt with he | ⟨_, _, _, x, ext, hxa, _, hn, _⟩
  · rw [he]; exact h
  · rw [hn]; exact getNode_set_att_mono _ _ _ hxa v h

theorem innerStep_budget_le (rng : ℕ → ℚ) (cur : ℕ) (s : TrialState) (tgt : ℕ) :
    (innerStep rng cur s tgt).budget ≤ s.budget := by
  rcases innerStep_cases rng cur s tgt with he | ⟨_, _, _, x, ext, _, _, _, _, hb, _⟩
  · rw [he]
  · rw [hb]; linarith

theorem innerStep_of_budget_nonpos (rng : ℕ → ℚ) (cur : ℕ) (s : TrialState) (tgt : ℕ)
    (h : s.budget ≤ 0) : innerStep rng cur s tgt = s := by
  rcases innerStep_cases rng cur s tgt with he | ⟨_, _, hpos, _⟩
  · exact he
  · linarith

theorem innerStep_popEvents (rng : ℕ → ℚ) (cur : ℕ) (s : TrialState) (tgt : ℕ) :
    popEvents (innerStep rng cur s tgt).log = popEvents s.log := by
  rcases innerStep_cases rng cur s tgt with he | ⟨_, _, _, x, ext, _, _, _, _, _, hl, hext⟩
  · rw [he]
  · rw [hl, popEvents_append]
    rcases hext with ⟨he, _⟩ | he <;> simp [he, popEvents]

theorem innerStep_comp (rng : ℕ → ℚ) (cur : ℕ) (s : TrialState) (tgt : ℕ)
    (hca : compImpAtt s.nodes) :
    compImpAtt (innerStep rng cur s tgt).nodes ∧
    ∀ v, (getNode s.nodes v).is_compromised = true →
      (getNode (innerStep rng cur s tgt).nodes v).is_compromised = true := by
  rcases innerStep_cases rng cur s tgt with he | ⟨hatt, hlen, _, x, ext, hxa, _, hn, _⟩
  · rw [he]; exact ⟨hca, fun v h => h⟩
  · constructor
    · intro v hcv
      rw [hn] at hcv ⊢
      by_cases hveq : v = tgt
      · subst hveq
        by_cases hl : v < s.nodes.length
        · rw [getNode_set_self _ _ _ hl]; exact hxa
        · rw [set_of_length_le _ _ _ (le_of_not_lt hl)] at hcv ⊢
          exact hca v hcv
      · rw [getNode_set_ne _ _ _ _ hveq] at hcv ⊢
        exact hca v hcv
    · intro v hv
      rw [hn]
      by_cases hveq : v = tgt
      · subst hveq
        exact absurd (hca v hv) (by rw [hatt]; simp)
      · rw [getNode_set_ne _ _ _ _ hveq]; exact hv

theorem innerStep_inv (rng : ℕ → ℚ) (cur : ℕ) (s : TrialState) (tgt : ℕ)
    (h : LoopInv s) : LoopInv (innerStep rng cur s tgt) := by
  rcases innerStep_cases rng cur s tgt with he | ⟨hatt, hlen, _, x, ext, hxa, hxd, hn,
    htg, _, hlog, hext⟩
  · rw [he]; exact h
  rcases hext with ⟨_, _, hnd⟩ | hext
  · exact absurd ⟨h.defb tgt, h.defb cur⟩ hnd
  have hdefEq : ∀ v, (getNode (innerStep rng cur s tgt).nodes v).defense_value =
      (getNode s.nodes v).defense_value := innerStep_defense rng cur s tgt
  have hlenEq : (innerStep rng cur s tgt).nodes.length = s.nodes.length :=
    innerStep_length rng cur s tgt
  have hresolved : resolvedTargets (innerStep rng cur s tgt).log =
      resolvedTargets s.log ++ [tgt] := by
    rw [hlog, hext, resolvedTargets_append]; rfl
  have hntgt : tgt ∉ resolvedTargets s.log := by
    intro hmem
    have := ((h.lok.2 tgt).mp hmem).2
    rw [hatt] at this
    exact absurd this (by simp)
  refine ⟨?_, ?_, ?_, ⟨?_, ?_⟩, ?_⟩
  · intro v; rw [hdefEq]; exact h.defb v
  · exact (innerStep_comp rng cur s tgt h.ca).1
  · intro i hi
    rw [htg] at hi
    rcases List.mem_append.mp hi with hi | hi
    · obtain ⟨hil, hia⟩ := h.qok i hi
      exact ⟨by rw [hlenEq]; exact hil, by rw [hn]; exact getNode_set_att_mono _ _ _ hxa i hia⟩
    · rw [List.mem_singleton] at hi
      subst hi
      refine ⟨by rw [hlenEq]; exact hlen, ?_⟩
      rw [hn, getNode_set_self _ _ _ hlen]
      exact hxa
  · rw [hresolved]
    rw [List.nodup_append]
    exact ⟨h.lok.1, List.nodup_singleton tgt, by simpa using hntgt⟩
  · intro i
    rw [hresolved, List.mem_append, List.mem_singleton]
    by_cases hieq : i = tgt
    · subst hieq
      simp only [or_true, true_iff]
      refine ⟨by rw [hlenEq]; exact hlen, ?_⟩
      rw [hn, getNode_set_self _ _ _ hlen]
      exact hxa
    · simp only [hieq, or_false]
      rw [h.lok.2 i, hlenEq, hn, getNode_set_ne _ _ _ _ hieq]
  · intro e he
    rw [hlog, hext] at he
    rcases List.mem_append.mp he with he | he
    · obtain ⟨hd, hi⟩ := h.tok e he
      constructor
      · intro v p hp; rw [hdefEq]; exact hd v p hp
      · intro c v p hp; rw [hdefEq, hdefEq]; exact hi c v p hp
    · rw [List.mem_singleton] at he
      subst he
      constructor
      · intro v p hp; exact absurd hp (by simp)
      · intro c v p hp
        injection hp with hc hv hpp
        subst hc; subst hv; subst hpp
        rw [hdefEq, hdefEq]

theorem spreadBody_inv (adj : List (List ℕ)) (rng : ℕ → ℚ) (s : TrialState)
    (h : LoopInv s) : LoopInv (spreadBody adj rng s) := by
  have hs0 : LoopInv { s with
      targets := s.targets.dropLast
      log := s.log ++ [Event.pop (s.targets.getLastD 0)] } := by
    refine ⟨h.defb, h.ca, ?_, ⟨?_, ?_⟩, ?_⟩
    · intro i hi
      exact h.qok i ((List.dropLast_sublist s.targets).subset hi)
    · rw [resolvedTargets_append]
      simpa [resolvedTargets] using h.lok.1
    · intro i
      rw [resolvedTargets_append]
      simpa [resolvedTargets] using h.lok.2 i
    · intro e he
      rcases List.mem_append.mp he with he | he
      · obtain ⟨hd, hi⟩ := h.tok e he
        exact ⟨hd, hi⟩
      · rw [List.mem_singleton] at he
        subst he
        exact ⟨fun v p hp => absurd hp (by simp), fun c v p hp => absurd hp (by simp)⟩
  simp only [spreadBody]
  split
  · exact foldl_innerStep_preserve LoopInv rng _
      (fun s' t hh => innerStep_inv rng _ s' t hh) _ _ hs0
  · exact hs0

theorem spreadLoopFuel_inv (adj : List (List ℕ)) (rng : ℕ → ℚ) (fuel : ℕ) (s : TrialState)
    (h : LoopInv s) : LoopInv (spreadLoopFuel adj rng fuel s) :=
  spreadLoopFuel_preserve adj rng LoopInv (fun s' hh _ => spreadBody_inv adj rng s' hh) fuel s h

theorem getNode_set_fieldEq {β : Type} (f : Node → β) (nodes : List Node) (i : ℕ) (x : Node)
    (hx : f x = f (getNode nodes i)) (v : ℕ) :
    f (getNode (nodes.set i x) v) = f (getNode nodes v) := by
  by_cases hv : v = i
  · subst hv
    by_cases hl : v < nodes.length
    · rw [getNode_set_self _ _ _ hl, hx]
    · rw [set_of_length_le _ _ _ (le_of_not_lt hl)]
  · rw [getNode_set_ne _ _ _ _ hv]

theorem directFold_length (rng : ℕ → ℚ) (l : List ℕ) :
    ∀ s : TrialState, (l.foldl (directStep rng) s).nodes.length = s.nodes.length := by
  induction l with
  | nil => intro s; rfl
  | cons a t ih =>
    intro s
    obtain ⟨x, _, _, hn, _⟩ := directStep_cases rng s a
    rw [List.foldl_cons, ih, hn, List.length_set]

theorem directFold_budget (rng : ℕ → ℚ) (l : List ℕ) :
    ∀ s : TrialState, (l.foldl (directStep rng) s).budget = s.budget := by
  induction l with
  | nil => intro s; rfl
  | cons a t ih =>
    intro s
    obtain ⟨x, _, _, _, hb, _⟩ := directStep_cases rng s a
    rw [List.foldl_cons, ih, hb]

theorem directFold_targets (rng : ℕ → ℚ) (l : List ℕ) :
    ∀ s : TrialState, (l.foldl (directStep rng) s).targets = s.targets := by
  induction l with
  | nil => intro s; rfl
  | cons a t ih =>
    intro s
    obtain ⟨x, _, _, _, _, ht, _⟩ := directStep_cases rng s a
    rw [List.foldl_cons, ih, ht]

theorem directFold_defense (rng : ℕ → ℚ) (l : List ℕ) :
    ∀ (s : TrialState) (v : ℕ),
      (getNode (l.foldl (directStep rng) s).nodes v).defense_value =
        (getNode s.nodes v).defense_value := by
  induction l with
  | nil => intro s v; rfl
  | cons a t ih =>
    intro s v
    obtain ⟨x, _, hxd, hn, _⟩ := directStep_cases rng s a
    rw [List.foldl_cons, ih, hn, getNode_set_defense _ _ _ hxd v]

theorem directFold_attacked (rng : ℕ → ℚ) (l : List ℕ) :
    ∀ (s : TrialState) (v : ℕ),
      (getNode (l.foldl (directStep rng) s).nodes v).is_attacked =
        (getNode s.nodes v).is_attacked := by
  induction l with
  | nil => intro s v; rfl
  | cons a t ih =>
    intro s v
    obtain ⟨x, hxa, _, hn, _⟩ := directStep_cases rng s a
    rw [List.foldl_cons, ih, hn,
      getNode_set_fieldEq (fun nd => nd.is_attacked) _ _ _ hxa v]

theorem directFold_comp_notmem (rng : ℕ → ℚ) (l : List ℕ) :
    ∀ (s : TrialState) (v : ℕ), v ∉ l →
      (getNode (l.foldl (directStep rng) s).nodes v).is_compromised =
        (getNode s.nodes v).is_compromised := by
  induction l with
  | nil => intro s v _; rfl
  | cons a t ih =>
    intro s v hv
    obtain ⟨x, _, _, hn, _⟩ := directStep_cases rng s a
    have hva : v ≠ a := fun e => hv (by rw [e]; exact List.mem_cons_self _ _)
    rw [List.foldl_cons, ih _ _ (fun hm => hv (List.mem_cons_of_mem _ hm)), hn,
      getNode_set_ne _ _ _ _ hva]

theorem directFold_resolved (rng : ℕ → ℚ) (l : List ℕ) :
    ∀ s : TrialState,
      resolvedTargets (l.foldl (directStep rng) s).log = resolvedTargets s.log ++ l := by
  induction l with
  | nil => intro s; simp
  | cons a t ih =>
    intro s
    obtain ⟨x, _, _, _, _, _, hl⟩ := directStep_cases rng s a
    rw [List.foldl_cons, ih, hl, resolvedTargets_append]
    simp [resolvedTargets]

theorem directFold_popEvents (rng : ℕ → ℚ) (l : List ℕ) :
    ∀ s : TrialState, popEvents (l.foldl (directStep rng) s).log = popEvents s.log := by
  induction l with
  | nil => intro s; rfl
  | cons a t ih =>
    intro s
    obtain ⟨x, _, _, _, _, _, hl⟩ := directStep_cases rng s a
    rw [List.foldl_cons, ih, hl, popEvents_append]
    simp [popEvents]

theorem directFold_tok (rng : ℕ → ℚ) (l : List ℕ) :
    ∀ s : TrialState, thresholdsOk s → thresholdsOk (l.foldl (directStep rng) s) := by
  induction l with
  | nil => intro s h; exact h
  | cons a t ih =>
    intro s h
    rw [List.foldl_cons]
    refine ih _ ?_
    obtain ⟨x, _, hxd, hn, _, _, hl⟩ := directStep_cases rng s a
    intro e he
    rw [hl] at he
    have hdefEq : ∀ v, (getNode (directStep rng s a).nodes v).defense_value =
        (getNode s.nodes v).defense_value := by
      intro v; rw [hn, getNode_set_defense _ _ _ hxd v]
    rcases List.mem_append.mp he with he | he
    · obtain ⟨hd, hi⟩ := h e he
      constructor
      · intro v p hp; rw [hdefEq]; exact hd v p hp
      · intro c v p hp; rw [hdefEq, hdefEq]; exact hi c v p hp
    · rw [List.mem_singleton] at he
      subst he
      constructor
      · intro v p hp
        injection hp with hv hpp
        subst hv; subst hpp
        rw [hdefEq]
      · intro c v p hp; exact absurd hp (by simp)

theorem innerStep_ledger (rng : ℕ → ℚ) (cur : ℕ) (s : TrialState) (tgt : ℕ)
    (h : ledgerOk s.budget) : ledgerOk (innerStep rng cur s tgt).budget := by
  rcases innerStep_cases rng cur s tgt with he | ⟨_, _, hpos, x, ext, _, _, _, _, hb, _⟩
  · rw [he]; exact h
  · rw [hb]
    obtain ⟨hnn, z, hz⟩ := h
    have hz1 : 1 ≤ z := by
      by_contra hc
      push_neg at hc
      have : s.budget ≤ 0 := by
        rw [hz]
        have : (z : ℚ) ≤ 0 := by exact_mod_cast Int.lt_add_one_iff.mp hc
        linarith
      linarith
    constructor
    · rw [hz]
      have : (1 : ℚ) ≤ (z : ℚ) := by exact_mod_cast hz1
      norm_num
      linarith
    · refine ⟨z - 1, ?_⟩
      rw [hz]
      push_cast
      norm_num
      ring

theorem attackedIndices_nodup (nodes : List Node) : (attackedIndices nodes).Nodup :=
  (List.nodup_range _).filter _

theorem mem_attackedIndices (nodes : List Node) (i : ℕ) :
    i ∈ attackedIndices nodes ↔
      (i < nodes.length ∧ (getNode nodes i).is_attacked = true) := by
  simp [attackedIndices, List.mem_filter, List.mem_range]

theorem initial_inv (rng : ℕ → ℚ) (nodes : List Node) (b : ℚ)
    (hdef : ∀ nd ∈ nodes, nd.defense_value ≤ 1)
    (hcomp : ∀ nd ∈ nodes, nd.is_compromised = false) :
    LoopInv (deg_deg_initial_attack rng nodes b) := by
  simp only [deg_deg_initial_attack]
  refine ⟨?_, ?_, ?_, ⟨?_, ?_⟩, ?_⟩
  · intro v
    rw [directFold_defense]
    by_cases hl : v < nodes.length
    · exact hdef _ (getNode_mem nodes v hl)
    · rw [getNode_of_length_le _ _ (le_of_not_lt hl)]
      simp [sentinelNode]
  · intro v hcv
    rw [directFold_attacked]
    by_cases hv : v ∈ attackedIndices nodes
    · exact ((mem_attackedIndices nodes v).mp hv).2
    · rw [directFold_comp_notmem _ _ _ _ hv] at hcv
      by_cases hl : v < nodes.length
      · exact absurd hcv (by rw [hcomp _ (getNode_mem nodes v hl)]; simp)
      · rw [getNode_of_length_le _ _ (le_of_not_lt hl)] at hcv
        exact absurd hcv (by simp [sentinelNode])
  · intro i hi
    rw [directFold_targets] at hi
    have hi2 := (mem_sortDescBy _ _ i).mp hi
    obtain ⟨hl, ha⟩ := (mem_attackedIndices nodes i).mp hi2
    rw [directFold_length, directFold_attacked]
    exact ⟨hl, ha⟩
  · rw [directFold_resolved]
    simpa [resolvedTargets] using attackedIndices_nodup nodes
  · intro i
    rw [directFold_resolved, directFold_length, directFold_attacked]
    simpa [resolvedTargets] using mem_attackedIndices nodes i
  · refine directFold_tok rng _ _ ?_
    intro e he
    simp at he

theorem innerStep_measure (rng : ℕ → ℚ) (cur : ℕ) (s : TrialState) (tgt : ℕ) :
    spreadMeasure (innerStep rng cur s tgt) ≤ spreadMeasure s := by
  rcases innerStep_cases rng cur s tgt with he | ⟨hatt, hlen, _, x, ext, hxa, _, hn, htg, _⟩
  · rw [he]
  · have hc := countP_set_eq (fun nd => !nd.is_attacked) s.nodes tgt x hlen
    simp [hatt, hxa] at hc
    simp only [spreadMeasure, hn, htg, List.length_append, List.length_singleton]
    omega

theorem foldl_innerStep_measure (rng : ℕ → ℚ) (cur : ℕ) (l : List ℕ) :
    ∀ s : TrialState,
      spreadMeasure (l.foldl (innerStep rng cur) s) ≤ spreadMeasure s := by
  induction l with
  | nil => intro s; exact le_refl _
  | cons a t ih =>
    intro s
    exact le_trans (ih _) (innerStep_measure rng cur s a)

theorem spreadBody_measure (adj : List (List ℕ)) (rng : ℕ → ℚ) (s : TrialState)
    (h : loopCond s = true) :
    spreadMeasure (spreadBody adj rng s) < spreadMeasure s := by
  have hlen : 0 < s.targets.length := by
    rw [loopCond, Bool.and_eq_true] at h
    simpa using h.2
  have hs0 : spreadMeasure { s with
      targets := s.targets.dropLast
      log := s.log ++ [Event.pop (s.targets.getLastD 0)] } < spreadMeasure s := by
    simp only [spreadMeasure, List.length_dropLast]
    omega
  simp only [spreadBody]
  split
  · exact lt_of_le_of_lt (foldl_innerStep_measure rng _ _ _) hs0
  · exact hs0

theorem spreadLoopFuel_exit (adj : List (List ℕ)) (rng : ℕ → ℚ) :
    ∀ (fuel : ℕ) (s : TrialState), spreadMeasure s < fuel →
      loopCond (spreadLoopFuel adj rng fuel s) = false := by
  intro fuel
  induction fuel with
  | zero => intro s h; omega
  | succ f ih =>
    intro s h
    simp only [spreadLoopFuel]
    split
    · rename_i hc
      exact ih _ (by have := spreadBody_measure adj rng s hc; omega)
    · rename_i hc
      simpa using hc

/-- The while loop of deg_deg_trial genuinely terminates: at the state the
embedding returns, the loop condition of the source is false, so the fuel
embedding computes exactly the fixpoint the Python while loop reaches. -/
theorem spreadLoop_exit (adj : List (List ℕ)) (rng : ℕ → ℚ) (s : TrialState) :
    loopCond (spreadLoop adj rng s) = false :=
  spreadLoopFuel_exit adj rng _ s (Nat.lt_succ_self _)

theorem foldl_innerStep_length (rng : ℕ → ℚ) (cur : ℕ) (l : List ℕ) :
    ∀ s : TrialState, (l.foldl (innerStep rng cur) s).nodes.length = s.nodes.length := by
  induction l with
  | nil => intro s; rfl
  | cons a t ih => intro s; rw [List.foldl_cons, ih, innerStep_length]

theorem spreadBody_length (adj : List (List ℕ)) (rng : ℕ → ℚ) (s : TrialState) :
    (spreadBody adj rng s).nodes.length = s.nodes.length := by
  simp only [spreadBody]
  split
  · rw [foldl_innerStep_length]
  · rfl

theorem spreadLoopFuel_length (adj : List (List ℕ)) (rng : ℕ → ℚ) (fuel : ℕ)
    (s : TrialState) : (spreadLoopFuel adj rng fuel s).nodes.length = s.nodes.length := by
  have := spreadLoopFuel_preserve adj rng
    (fun s' => s'.nodes.length = s.nodes.length)
    (fun s' hP _ => by
      show (spreadBody adj rng s').nodes.length = s.nodes.length
      rw [spreadBody_length]
      exact hP) fuel s rfl
  exact this

theorem foldl_innerStep_att_mono (rng : ℕ → ℚ) (cur : ℕ) (l : List ℕ) :
    ∀ (s : TrialState) (v : ℕ), (getNode s.nodes v).is_attacked = true →
      (getNode ((l.foldl (innerStep rng cur) s)).nodes v).is_attacked = true := by
  induction l with
  | nil => intro s v h; exact h
  | cons a t ih =>
    intro s v h
    exact ih _ v (innerStep_att_mono rng cur s a v h)

theorem spreadBody_att_mono (adj : List (List ℕ)) (rng : ℕ → ℚ) (s : TrialState) (v : ℕ)
    (h : (getNode s.nodes v).is_attacked = true) :
    (getNode (spreadBody adj rng s).nodes v).is_attacked = true := by
  simp only [spreadBody]
  split
  · exact foldl_innerStep_att_mono rng _ _ _ v h
  · exact h

theorem spreadLoopFuel_att_mono (adj : List (List ℕ)) (rng : ℕ → ℚ) (fuel : ℕ)
    (s : TrialState) (v : ℕ) (h : (getNode s.nodes v).is_attacked = true) :
    (getNode (spreadLoopFuel adj rng fuel s).nodes v).is_attacked = true := by
  have := spreadLoopFuel_preserve adj rng
    (fun s' => ∀ w, (getNode s.nodes w).is_attacked = true →
      (getNode s'.nodes w).is_attacked = true)
    (fun s' hP _ w hw => spreadBody_att_mono adj rng s' w (hP w hw)) fuel s
    (fun w hw => hw)
  exact this v h

theorem foldl_innerStep_comp (rng : ℕ → ℚ) (cur : ℕ) (l : List ℕ) :
    ∀ s : TrialState, compImpAtt s.nodes →
      compImpAtt ((l.foldl (innerStep rng cur) s)).nodes ∧
      ∀ v, (getNode s.nodes v).is_compromised = true →
        (getNode ((l.foldl (innerStep rng cur) s)).nodes v).is_compromised = true := by
  induction l with
  | nil => intro s h; exact ⟨h, fun v hv => hv⟩
  | cons a t ih =>
    intro s h
    obtain ⟨h1, h2⟩ := innerStep_comp rng cur s a h
    obtain ⟨h3, h4⟩ := ih _ h1
    exact ⟨h3, fun v hv => h4 v (h2 v hv)⟩

theorem spreadBody_comp (adj : List (List ℕ)) (rng : ℕ → ℚ) (s : TrialState)
    (h : compImpAtt s.nodes) :
    compImpAtt (spreadBody adj rng s).nodes ∧
    ∀ v, (getNode s.nodes v).is_compromised = true →
      (getNode (spreadBody adj rng s).nodes v).is_compromised = true := by
  simp only [spreadBody]
  split
  · exact foldl_innerStep_comp rng _ _ _ h
  · exact ⟨h, fun v hv => hv⟩

theorem spreadLoopFuel_comp (adj : List (List ℕ)) (rng : ℕ → ℚ) (fuel : ℕ)
    (s : TrialState) (h : compImpAtt s.nodes) :
    compImpAtt (spreadLoopFuel adj rng fuel s).nodes ∧
    ∀ v, (getNode s.nodes v).is_compromised = true →
      (getNode (spreadLoopFuel adj rng fuel s).nodes v).is_compromised = true := by
  have := spreadLoopFuel_preserve adj rng
    (fun s' => compImpAtt s'.nodes ∧
      ∀ w, (getNode s.nodes w).is_compromised = true →
        (getNode s'.nodes w).is_compromised = true)
    (fun s' hP _ => by
      obtain ⟨hc, hm⟩ := hP
      obtain ⟨hc2, hm2⟩ := spreadBody_comp adj rng s' hc
      exact ⟨hc2, fun w hw => hm2 w (hm w hw)⟩) fuel s ⟨h, fun w hw => hw⟩
  exact this

theorem foldl_innerStep_budget_le (rng : ℕ → ℚ) (cur : ℕ) (l : List ℕ) :
    ∀ s : TrialState, (l.foldl (innerStep rng cur) s).budget ≤ s.budget := by
  induction l with
  | nil => intro s; exact le_refl _
  | cons a t ih =>
    intro s
    exact le_trans (ih _) (innerStep_budget_le rng cur s a)

theorem spreadBody_budget_le (adj : List (List ℕ)) (rng : ℕ → ℚ) (s : TrialState) :
    (spreadBody adj rng s).budget ≤ s.budget := by
  simp only [spreadBody]
  split
  · exact foldl_innerStep_budget_le rng _ _ _
  · exact le_refl _

theorem foldl_innerStep_ledger (rng : ℕ → ℚ) (cur : ℕ) (l : List ℕ) :
    ∀ s : TrialState, ledgerOk s.budget →
      ledgerOk ((l.foldl (innerStep rng cur) s)).budget := by
  induction l with
  | nil => intro s h; exact h
  | cons a t ih => intro s h; exact ih _ (innerStep_ledger rng cur s a h)

theorem spreadBody_ledger (adj : List (List ℕ)) (rng : ℕ → ℚ) (s : TrialState)
    (h : ledgerOk s.budget) : ledgerOk (spreadBody adj rng s).budget := by
  simp only [spreadBody]
  split
  · exact foldl_innerStep_ledger rng _ _ _ h
  · exact h

theorem spreadLoopFuel_ledger (adj : List (List ℕ)) (rng : ℕ → ℚ) (fuel : ℕ)
    (s : TrialState) (h : ledgerOk s.budget) :
    ledgerOk (spreadLoopFuel adj rng fuel s).budget :=
  spreadLoopFuel_preserve adj rng (fun s' => ledgerOk s'.budget)
    (fun s' hP _ => spreadBody_ledger adj rng s' hP) fuel s h

theorem foldl_innerStep_popEvents (rng : ℕ → ℚ) (cur : ℕ) (l : List ℕ) :
    ∀ s : TrialState,
      popEvents ((l.foldl (innerStep rng cur) s)).log = popEvents s.log := by
  induction l with
  | nil => intro s; rfl
  | cons a t ih => intro s; rw [List.foldl_cons, ih, innerStep_popEvents]

theorem spreadBody_popEvents (adj : List (List ℕ)) (rng : ℕ → ℚ) (s : TrialState) :
    popEvents (spreadBody adj rng s).log =
      popEvents s.log ++ [s.targets.getLastD 0] := by
  simp only [spreadBody]
  split
  · rw [foldl_innerStep_popEvents, popEvents_append]
    rfl
  · rw [popEvents_append]
    rfl

theorem innerStep_frozen (rng : ℕ → ℚ) (cur : ℕ) (s : TrialState) (tgt : ℕ)
    (hca : compImpAtt s.nodes)
    (hfail : s.budget ≤ 0 ∨
      ∀ v, v < s.nodes.length → (getNode s.nodes v).is_compromised = true) :
    innerStep rng cur s tgt = s := by
  rcases innerStep_cases rng cur s tgt with he | ⟨hatt, hlen, hpos, _⟩
  · exact he
  · rcases hfail with hb | hall
    · linarith
    · have := hca tgt (hall tgt hlen)
      rw [hatt] at this
      exact absurd this (by simp)

theorem foldl_innerStep_frozen (rng : ℕ → ℚ) (cur : ℕ) (l : List ℕ)
    (s : TrialState) (h : ∀ tgt, innerStep rng cur s tgt = s) :
    l.foldl (innerStep rng cur) s = s := by
  induction l with
  | nil => rfl
  | cons a t ih => rw [List.foldl_cons, h a, ih]

theorem spreadBody_frozen (adj : List (List ℕ)) (rng : ℕ → ℚ) (s : TrialState)
    (hca : compImpAtt s.nodes)
    (hfail : s.budget ≤ 0 ∨
      ∀ v, v < s.nodes.length → (getNode s.nodes v).is_compromised = true) :
    (spreadBody adj rng s).nodes = s.nodes ∧ (spreadBody adj rng s).budget = s.budget := by
  simp only [spreadBody]
  split
  · have hfr := foldl_innerStep_frozen rng (s.targets.getLastD 0)
      (sortDescBy (fun i => (getNode s.nodes i).centrality_value)
        (adj.getD (s.targets.getLastD 0) []))
      { s with
        targets := s.targets.dropLast
        log := s.log ++ [Event.pop (s.targets.getLastD 0)] }
      (fun tgt => innerStep_frozen rng _ _ tgt hca hfail)
    rw [hfr]
    exact ⟨rfl, rfl⟩
  · exact ⟨rfl, rfl⟩

theorem spreadLoopFuel_frozen (adj : List (List ℕ)) (rng : ℕ → ℚ) (fuel : ℕ)
    (s : TrialState) (hca : compImpAtt s.nodes)
    (hfail : s.budget ≤ 0 ∨
      ∀ v, v < s.nodes.length → (getNode s.nodes v).is_compromised = true) :
    (spreadLoopFuel adj rng fuel s).nodes = s.nodes ∧
    (spreadLoopFuel adj rng fuel s).budget = s.budget := by
  have := spreadLoopFuel_preserve adj rng
    (fun s' => s'.nodes = s.nodes ∧ s'.budget = s.budget)
    (fun s' hP _ => by
      obtain ⟨hn, hb⟩ := hP
      have hca' : compImpAtt s'.nodes := by rw [hn]; exact hca
      have hfail' : s'.budget ≤ 0 ∨
          ∀ v, v < s'.nodes.length → (getNode s'.nodes v).is_compromised = true := by
        rw [hn, hb]; exact hfail
      obtain ⟨hn2, hb2⟩ := spreadBody_frozen adj rng s' hca' hfail'
      exact ⟨by rw [hn2, hn], by rw [hb2, hb]⟩) fuel s ⟨rfl, rfl⟩
  exact this

theorem initial_targets (rng : ℕ → ℚ) (nodes : List Node) (b : ℚ) :
    (deg_deg_initial_attack rng nodes b).targets =
      sortDescBy (fun i => (getNode nodes i).centrality_value) (attackedIndices nodes) := by
  simp only [deg_deg_initial_attack]
  rw [directFold_targets]

theorem initial_budget (rng : ℕ → ℚ) (nodes : List Node) (b : ℚ) :
    (deg_deg_initial_attack rng nodes b).budget =
      b - (calc_direct_attack_budget b : ℚ) := by
  simp only [deg_deg_initial_attack]
  rw [directFold_budget]

theorem initial_length (rng : ℕ → ℚ) (nodes : List Node) (b : ℚ) :
    (deg_deg_initial_attack rng nodes b).nodes.length = nodes.length := by
  simp only [deg_deg_initial_attack]
  rw [directFold_length]

theorem initial_attacked (rng : ℕ → ℚ) (nodes : List Node) (b : ℚ) (v : ℕ) :
    (getNode (deg_deg_initial_attack rng nodes b).nodes v).is_attacked =
      (getNode nodes v).is_attacked := by
  simp only [deg_deg_initial_attack]
  rw [directFold_attacked]

theorem initial_defense (rng : ℕ → ℚ) (nodes : List Node) (b : ℚ) (v : ℕ) :
    (getNode (deg_deg_initial_attack rng nodes b).nodes v).defense_value =
      (getNode nodes v).defense_value := by
  simp only [deg_deg_initial_attack]
  rw [directFold_defense]

theorem initial_popEvents (rng : ℕ → ℚ) (nodes : List Node) (b : ℚ) :
    popEvents (deg_deg_initial_attack rng nodes b).log = [] := by
  simp only [deg_deg_initial_attack]
  rw [directFold_popEvents]
  rfl

theorem directFold_noIndirect (rng : ℕ → ℚ) (l : List ℕ) :
    ∀ s : TrialState, (∀ e ∈ s.log, isIndirectEvent e = false) →
      ∀ e ∈ (l.foldl (directStep rng) s).log, isIndirectEvent e = false := by
  induction l with
  | nil => intro s h; exact h
  | cons a t ih =>
    intro s h
    rw [List.foldl_cons]
    refine ih _ ?_
    obtain ⟨x, _, _, _, _, _, hl⟩ := directStep_cases rng s a
    intro e he
    rw [hl] at he
    rcases List.mem_append.mp he with he | he
    · exact h e he
    · rw [List.mem_singleton] at he
      subst he
      rfl

theorem initial_noIndirect (rng : ℕ → ℚ) (nodes : List Node) (b : ℚ) :
    ∀ e ∈ (deg_deg_initial_attack rng nodes b).log, isIndirectEvent e = false := by
  simp only [deg_deg_initial_attack]
  exact directFold_noIndirect rng _ _ (by intro e he; simp at he)

theorem foldl_innerStep_defense (rng : ℕ → ℚ) (cur : ℕ) (l : List ℕ) :
    ∀ (s : TrialState) (v : ℕ),
      (getNode ((l.foldl (innerStep rng cur) s)).nodes v).defense_value =
        (getNode s.nodes v).defense_value := by
  induction l with
  | nil => intro s v; rfl
  | cons a t ih => intro s v; rw [List.foldl_cons, ih, innerStep_defense]

theorem spreadBody_defense (adj : List (List ℕ)) (rng : ℕ → ℚ) (s : TrialState) (v : ℕ) :
    (getNode (spreadBody adj rng s).nodes v).defense_value =
      (getNode s.nodes v).defense_value := by
  simp only [spreadBody]
  split
  · rw [foldl_innerStep_defense]
  · rfl

theorem spreadLoopFuel_defense (adj : List (List ℕ)) (rng : ℕ → ℚ) (fuel : ℕ)
    (s : TrialState) (v : ℕ) :
    (getNode (spreadLoopFuel adj rng fuel s).nodes v).defense_value =
      (getNode s.nodes v).defense_value := by
  have := spreadLoopFuel_preserve adj rng
    (fun s' => ∀ w, (getNode s'.nodes w).defense_value = (getNode s.nodes w).defense_value)
    (fun s' hP _ w => by
      show (getNode (spreadBody adj rng s').nodes w).defense_value = _
      rw [spreadBody_defense]
      exact hP w) fuel s (fun w => rfl)
  exact this v

theorem run_length (adj : List (List ℕ)) (rng : ℕ → ℚ) (nodes : List Node) (b : ℚ) :
    (deg_deg_trial_run adj rng nodes b).nodes.length = nodes.length := by
  simp only [deg_deg_trial_run, spreadLoop]
  rw [spreadLoopFuel_length, initial_length]

theorem run_defense (adj : List (List ℕ)) (rng : ℕ → ℚ) (nodes : List Node) (b : ℚ)
    (v : ℕ) :
    (getNode (deg_deg_trial_run adj rng nodes b).nodes v).defense_value =
      (getNode nodes v).defense_value := by
  simp only [deg_deg_trial_run, spreadLoop]
  rw [spreadLoopFuel_defense, initial_defense]

theorem spreadLoopFuel_of_cond_false (adj : List (List ℕ)) (rng : ℕ → ℚ) (fuel : ℕ)
    (s : TrialState) (h : loopCond s = false) : spreadLoopFuel adj rng fuel s = s := by
  cases fuel with
  | zero => rfl
  | succ f => simp [spreadLoopFuel, h]

theorem spreadBody_adjEmpty (adj : List (List ℕ)) (rng : ℕ → ℚ) (s : TrialState)
    (hadj : ∀ c, adj.getD c [] = ([] : List ℕ)) :
    spreadBody adj rng s = { s with
      targets := s.targets.dropLast
      log := s.log ++ [Event.pop (s.targets.getLastD 0)] } := by
  simp only [spreadBody, hadj]
  split
  · rfl
  · rfl

theorem spreadLoopFuel_adjEmpty (adj : List (List ℕ)) (rng : ℕ → ℚ) (fuel : ℕ)
    (s : TrialState) (hadj : ∀ c, adj.getD c [] = ([] : List ℕ))
    (hlog : ∀ e ∈ s.log, isIndirectEvent e = false) :
    (spreadLoopFuel adj rng fuel s).nodes = s.nodes ∧
    ∀ e ∈ (spreadLoopFuel adj rng fuel s).log, isIndirectEvent e = false := by
  have := spreadLoopFuel_preserve adj rng
    (fun s' => s'.nodes = s.nodes ∧ ∀ e ∈ s'.log, isIndirectEvent e = false)
    (fun s' hP _ => by
      obtain ⟨hn, hl⟩ := hP
      rw [spreadBody_adjEmpty adj rng s' hadj]
      refine ⟨hn, ?_⟩
      intro e he
      rcases List.mem_append.mp he with he | he
      · exact hl e he
      · rw [List.mem_singleton] at he
        subst he
        rfl) fuel s ⟨rfl, hlog⟩
  exact this

theorem ceil_nat_div (b : ℕ) :
    calc_direct_attack_budget (b : ℚ) = (((b + 19) / 20 : ℕ) : ℤ) := by
  set k : ℕ := (b + 19) / 20 with hk
  have h1 : 20 * k ≤ b + 19 := by omega
  have h3 : b ≤ 20 * k := by omega
  have hq1 : 20 * (k : ℚ) ≤ (b : ℚ) + 19 := by exact_mod_cast h1
  have hq3 : (b : ℚ) ≤ 20 * (k : ℚ) := by exact_mod_cast h3
  rw [calc_direct_attack_budget, Int.ceil_eq_iff]
  have he : (0.05 : ℚ) = 1 / 20 := by norm_num
  rw [he]
  simp only [Int.cast_natCast]
  constructor
  · linarith
  · linarith

theorem calc_le_self_nat (b : ℕ) : calc_direct_attack_budget (b : ℚ) ≤ (b : ℤ) := by
  rw [calc_direct_attack_budget, Int.ceil_le]
  push_cast
  nlinarith [Nat.cast_nonneg (α := ℚ) b]

theorem calc_eq_one (b : ℚ) (h1 : 0 < b) (h2 : b ≤ 20) :
    calc_direct_attack_budget b = 1 := by
  rw [calc_direct_attack_budget, Int.ceil_eq_iff]
  constructor
  · push_cast
    nlinarith
  · push_cast
    nlinarith

theorem calcEval40 : calc_direct_attack_budget 40 = 2 := by
  rw [calc_direct_attack_budget, Int.ceil_eq_iff]
  norm_num

theorem calcEval21 : calc_direct_attack_budget 21 = 2 := by
  rw [calc_direct_attack_budget, Int.ceil_eq_iff]
  norm_num

theorem compImpAtt_of_forall_mem (nodes : List Node)
    (h : ∀ nd ∈ nodes, nd.is_compromised = true → nd.is_attacked = true) :
    compImpAtt nodes := by
  intro v hv
  by_cases hl : v < nodes.length
  · exact h _ (getNode_mem nodes v hl) hv
  · rw [getNode_of_length_le _ _ (le_of_not_lt hl)] at hv
    simp [sentinelNode] at hv

theorem attackedIndices_of_unattacked (nodes : List Node)
    (hatt : ∀ nd ∈ nodes, nd.is_attacked = false) :
    attackedIndices nodes = [] := by
  rw [attackedIndices, List.filter_eq_nil_iff]
  intro i hi
  rw [List.mem_range] at hi
  simp [hatt _ (getNode_mem nodes i hi)]

/-- A trial on a network with no attacked node pops nothing, attacks nothing
and reports a fraction of 0 (given that nothing was compromised going in). -/
theorem trial_no_attack_result (adj : List (List ℕ)) (rng : ℕ → ℚ) (nodes : List Node)
    (b : ℚ) (hatt : ∀ nd ∈ nodes, nd.is_attacked = false)
    (hcomp : ∀ nd ∈ nodes, nd.is_compromised = false) :
    deg_deg_trial adj rng nodes b = 0 := by
  have hempty : attackedIndices nodes = [] := attackedIndices_of_unattacked nodes hatt
  have hrun : deg_deg_trial_run adj rng nodes b = deg_deg_initial_attack rng nodes b := by
    simp only [deg_deg_trial_run, spreadLoop]
    apply spreadLoopFuel_of_cond_false
    rw [loopCond, initial_targets, hempty]
    simp [sortDescBy]
  simp only [deg_deg_trial, hrun]
  have hnodes : (deg_deg_initial_attack rng nodes b).nodes = nodes := by
    simp only [deg_deg_initial_attack, hempty]
    rfl
  rw [hnodes]
  have hzero : nodes.countP (fun nd => nd.is_compromised) = 0 := by
    rw [List.countP_eq_zero]
    intro a ha
    simp [hcomp a ha]
  rw [hzero]
  simp

theorem getLastD_concat_eq {α : Type} (q : List α) (v d : α) :
    (q ++ [v]).getLastD d = v := by
  induction q generalizing d with
  | nil => rfl
  | cons a t ih =>
    rw [List.cons_append, List.getLastD_cons]
    exact ih a

/-- C1: the claim states that check_trial_conditions returns True exactly when
the ledger is positive and at least one node is still uncompromised.  The
source contradicts its own docstring: nx.get_node_attributes reads the graph
attribute store, which this repository never writes, so the compromise half of
the predicate degenerates to all([]) = True and the function keeps returning
True even when every node is compromised.  At the failing input — a network
whose single node is compromised, with budget 5 — the source predicate returns
true while the documented predicate (check_trial_conditions_spec) returns
false. -/
theorem C1_continuation_predicate_bug :
    check_trial_conditions
      [{ name := 0, defense_value := 0, attack_value := 0, centrality_value := 0,
         is_attacked := true, is_compromised := true }] 5 = true ∧
    check_trial_conditions_spec
      [{ name := 0, defense_value := 0, attack_value := 0, centrality_value := 0,
         is_attacked := true, is_compromised := true }] 5 = false := by
  constructor
  · rw [check_trial_conditions_iff]
    norm_num
  · simp [check_trial_conditions_spec]

/-- C4: calc_direct_attack_budget computes ceil(0.05 b) for every natural
budget b — equivalently the ceiling division (b + 19) / 20 — and in particular
returns 3 at b = 60 and 5 at b = 100. -/
theorem C4_direct_attack_budget :
    (∀ b : ℕ, calc_direct_attack_budget (b : ℚ) = ⌈(0.05 : ℚ) * (b : ℚ)⌉) ∧
    (∀ b : ℕ, calc_direct_attack_budget (b : ℚ) = (((b + 19) / 20 : ℕ) : ℤ)) ∧
    calc_direct_attack_budget 60 = 3 ∧
    calc_direct_attack_budget 100 = 5 := by
  refine ⟨fun b => rfl, ceil_nat_div, ?_, ?_⟩
  · have h := ceil_nat_div 60
    norm_num at h
    exact h
  · have h := ceil_nat_div 100
    norm_num at h
    exact h

/-- C2 counterexample: run the full pipeline on two directly attacked nodes of
centrality 2 (index 0) and 1 (index 1) with budget 40.  The initial queue is
[0, 1], centrality descending, yet the first node removed from the queue is
node 1 — the LOWEST-centrality entry — because targets.pop() removes the last
list element.  This refutes the claim that every removal takes the
highest-centrality node currently in the queue. -/
theorem C2_pop_counterexample :
    (deg_deg_initial_attack rngZero [cNodeHi, cNodeLo] 40).targets = [0, 1] ∧
    popEvents (deg_deg_trial_run [[], []] rngZero [cNodeHi, cNodeLo] 40).log = [1, 0] ∧
    (getNode [cNodeHi, cNodeLo] 1).centrality_value <
      (getNode [cNodeHi, cNodeLo] 0).centrality_value := by
  refine ⟨?_, ?_, ?_⟩ <;>
    norm_num [deg_deg_trial_run, deg_deg_initial_attack, attackedIndices, spreadLoop,
      spreadMeasure, spreadLoopFuel, spreadBody, loopCond, check_trial_conditions,
      get_node_attributes_is_compromised, innerStep, resolveIndirect, directStep, getNode,
      sentinelNode, sortDescBy, insertDescBy, cNodeHi, cNodeLo, rngZero, popEvents,
      calcEval40, List.range_succ, List.getLastD]

/-- C2 corrected: the attack queue is initialized with the directly attacked
nodes ordered by centrality descending, but each iteration removes the LAST
element of the queue (the most recently appended entry — a LIFO stack), not
the highest-priority one. -/
theorem C2_queue_pop_last (adj : List (List ℕ)) (rng : ℕ → ℚ) (nodes : List Node)
    (b : ℚ) :
    ((deg_deg_initial_attack rng nodes b).targets =
      sortDescBy (fun i => (getNode nodes i).centrality_value) (attackedIndices nodes)) ∧
    (List.Pairwise
      (fun i j => (getNode nodes j).centrality_value ≤ (getNode nodes i).centrality_value)
      (deg_deg_initial_attack rng nodes b).targets) ∧
    (∀ (s : TrialState) (q : List ℕ) (v : ℕ), s.targets = q ++ [v] →
      popEvents (spreadBody adj rng s).log = popEvents s.log ++ [v]) := by
  refine ⟨initial_targets rng nodes b, ?_, ?_⟩
  · rw [initial_targets]
    exact pairwise_sortDescBy _ _
  · intro s q v hq
    rw [spreadBody_popEvents, hq, getLastD_concat_eq q v 0]

/-- Witness for C2_queue_pop_last: with queue [0, 1] the popped node is 1. -/
theorem C2_queue_pop_last_witness :
    c2State.targets = [0] ++ [1] ∧
    popEvents (spreadBody [[], []] rngZero c2State).log = popEvents c2State.log ++ [1] :=
  ⟨rfl, (C2_queue_pop_last [[], []] rngZero [cNodeHi, cNodeLo] 38).2.2 c2State [0] 1 rfl⟩

/-- C3: in every trial run from a post-allocation state (defense values in
{0,1}, nothing compromised yet), every logged direct resolution used threshold
0.70 or 0.90 according to the defense value of the target, every logged
indirect resolution used exactly the joint-defense table threshold, the
resolution events hit pairwise distinct nodes (each node is resolved at most
once, at the moment it becomes attacked), and a node carries a resolution
event exactly when it is an attacked node of the graph at trial end. -/
theorem C3_resolution_probabilities (adj : List (List ℕ)) (rng : ℕ → ℚ)
    (nodes : List Node) (b : ℚ)
    (hdef : ∀ nd ∈ nodes, nd.defense_value ≤ 1)
    (hcomp : ∀ nd ∈ nodes, nd.is_compromised = false) :
    (∀ e ∈ (deg_deg_trial_run adj rng nodes b).log,
      (∀ v p, e = Event.direct v p →
        p = directProbSpec (getNode nodes v).defense_value) ∧
      (∀ c v p, e = Event.indirect c v p →
        p = indirectProbSpec (getNode nodes c).defense_value
          (getNode nodes v).defense_value)) ∧
    (resolvedTargets (deg_deg_trial_run adj rng nodes b).log).Nodup ∧
    (∀ i, i ∈ resolvedTargets (deg_deg_trial_run adj rng nodes b).log ↔
      (i < nodes.length ∧
        (getNode (deg_deg_trial_run adj rng nodes b).nodes i).is_attacked = true)) := by
  have hinv : LoopInv (deg_deg_trial_run adj rng nodes b) := by
    simp only [deg_deg_trial_run, spreadLoop]
    exact spreadLoopFuel_inv adj rng _ _ (initial_inv rng nodes b hdef hcomp)
  refine ⟨?_, hinv.lok.1, ?_⟩
  · intro e he
    obtain ⟨hd, hi⟩ := hinv.tok e he
    constructor
    · intro v p hp
      rw [hd v p hp, run_defense]
    · intro c v p hp
      rw [hi c v p hp, run_defense, run_defense]
  · intro i
    rw [hinv.lok.2 i, run_length]

/-- Witness for C3 on a concrete two-node network with budget 40. -/
theorem C3_resolution_probabilities_witness :
    ((∀ nd ∈ [cNodeHi, cNodeLo], nd.defense_value ≤ 1) ∧
      (∀ nd ∈ [cNodeHi, cNodeLo], nd.is_compromised = false)) ∧
    ((∀ e ∈ (deg_deg_trial_run [[], []] rngZero [cNodeHi, cNodeLo] 40).log,
      (∀ v p, e = Event.direct v p →
        p = directProbSpec (getNode [cNodeHi, cNodeLo] v).defense_value) ∧
      (∀ c v p, e = Event.indirect c v p →
        p = indirectProbSpec (getNode [cNodeHi, cNodeLo] c).defense_value
          (getNode [cNodeHi, cNodeLo] v).defense_value)) ∧
    (resolvedTargets (deg_deg_trial_run [[], []] rngZero [cNodeHi, cNodeLo] 40).log).Nodup ∧
    (∀ i, i ∈ resolvedTargets (deg_deg_trial_run [[], []] rngZero [cNodeHi, cNodeLo] 40).log ↔
      (i < ([cNodeHi, cNodeLo] : List Node).length ∧
        (getNode (deg_deg_trial_run [[], []] rngZero [cNodeHi, cNodeLo] 40).nodes
          i).is_attacked = true))) :=
  ⟨⟨by decide, by decide⟩,
    C3_resolution_probabilities [[], []] rngZero [cNodeHi, cNodeLo] 40
      (by decide) (by decide)⟩

/-- C5 counterexample: the claim promises normal termination for a 1-node
topology under ANY attack budget above 0, but at budget 21 the direct attack
budget is ceil(0.05 * 21) = 2, and the allocation loop indexes
sorted_nodes[1] in a 1-element list — an IndexError in the source, none in
the embedding — so the pipeline does not terminate normally. -/
theorem C5_budget21_overflow :
    (0 : ℚ) < 21 ∧ assign_attack_values [freshNode] 21 = none := by
  constructor
  · norm_num
  · simp [assign_attack_values, calcEval21]

/-- C5 corrected: for a 1-node topology the claim holds for the budgets whose
direct attack budget fits the node count, 0 < b and b at most 20: allocation
succeeds, the trial terminates normally with fraction 0 or 1, and the whole
outcome is decided in the direct phase — the spread loop neither changes any
node nor logs any indirect resolution. -/
theorem C5_one_node_small_budget (b : ℚ) (rng : ℕ → ℚ) (nd : Node)
    (hb0 : 0 < b) (hb20 : b ≤ 20) (hatt : nd.is_attacked = false)
    (hcomp : nd.is_compromised = false) :
    ∃ nodes1 : List Node,
      assign_attack_values [nd] b = some nodes1 ∧
      (deg_deg_trial [[]] rng nodes1 b = 0 ∨ deg_deg_trial [[]] rng nodes1 b = 1) ∧
      (deg_deg_trial_run [[]] rng nodes1 b).nodes =
        (deg_deg_initial_attack rng nodes1 b).nodes ∧
      ∀ e ∈ (deg_deg_trial_run [[]] rng nodes1 b).log, isIndirectEvent e = false := by
  have hc1 : calc_direct_attack_budget b = 1 := calc_eq_one b hb0 hb20
  have hadj : ∀ c, ([[]] : List (List ℕ)).getD c [] = ([] : List ℕ) := by
    intro c
    cases c with
    | zero => rfl
    | succ n => rfl
  refine ⟨[{ nd with attack_value := 1, is_attacked := true }], ?_, ?_, ?_, ?_⟩
  · simp [assign_attack_values, hc1]
  · have hlen : (deg_deg_trial_run [[]] rng
        [{ nd with attack_value := 1, is_attacked := true }] b).nodes.length = 1 := by
      rw [run_length]
      rfl
    have hcle : (deg_deg_trial_run [[]] rng
        [{ nd with attack_value := 1, is_attacked := true }] b).nodes.countP
          (fun ndd => ndd.is_compromised) ≤
        (deg_deg_trial_run [[]] rng
        [{ nd with attack_value := 1, is_attacked := true }] b).nodes.length := by
      apply List.countP_le_length
    rw [hlen] at hcle
    have hcase : (deg_deg_trial_run [[]] rng
        [{ nd with attack_value := 1, is_attacked := true }] b).nodes.countP
        (fun ndd => ndd.is_compromised) = 0 ∨
        (deg_deg_trial_run [[]] rng
        [{ nd with attack_value := 1, is_attacked := true }] b).nodes.countP
        (fun ndd => ndd.is_compromised) = 1 := by omega
    rcases hcase with hc | hc
    · left
      simp only [deg_deg_trial]
      rw [hc, hlen]
      norm_num
    · right
      simp only [deg_deg_trial]
      rw [hc, hlen]
      norm_num
  · simp only [deg_deg_trial_run, spreadLoop]
    exact (spreadLoopFuel_adjEmpty [[]] rng _ _ hadj (initial_noIndirect rng _ b)).1
  · simp only [deg_deg_trial_run, spreadLoop]
    exact (spreadLoopFuel_adjEmpty [[]] rng _ _ hadj (initial_noIndirect rng _ b)).2

/-- Witness for C5_one_node_small_budget at budget 10 on a fresh node. -/
theorem C5_one_node_small_budget_witness :
    ((0 : ℚ) < 10 ∧ (10 : ℚ) ≤ 20 ∧ freshNode.is_attacked = false ∧
      freshNode.is_compromised = false) ∧
    ∃ nodes1 : List Node,
      assign_attack_values [freshNode] 10 = some nodes1 ∧
      (deg_deg_trial [[]] rngZero nodes1 10 = 0 ∨
        deg_deg_trial [[]] rngZero nodes1 10 = 1) ∧
      (deg_deg_trial_run [[]] rngZero nodes1 10).nodes =
        (deg_deg_initial_attack rngZero nodes1 10).nodes ∧
      ∀ e ∈ (deg_deg_trial_run [[]] rngZero nodes1 10).log, isIndirectEvent e = false :=
  ⟨⟨by norm_num, by norm_num, rfl, rfl⟩,
    C5_one_node_small_budget 10 rngZero freshNode (by norm_num) (by norm_num) rfl rfl⟩

/-- C6 counterexample: the claim promises rejection of negative budgets before
any trial runs, but allocation with defense budget -5 returns normally with no
node defended, and a full trial with attack budget -10 runs to completion and
returns the fraction 0 — a result, not a rejection. -/
theorem C6_negative_budget_accepted :
    assign_defense_values [freshNode] (-5) = [freshNode] ∧
    deg_deg_trial [[]] rngZero [freshNode] (-10) = 0 := by
  constructor
  · simp [assign_defense_values]
  · exact trial_no_attack_result [[]] rngZero [freshNode] (-10)
      (by intro ndd h; rw [List.mem_singleton] at h; subst h; rfl)
      (by intro ndd h; rw [List.mem_singleton] at h; subst h; rfl)

/-- C6 corrected: negative budgets are not rejected — the source performs no
budget validation at all.  A negative defense budget silently defends no node,
a negative attack budget silently attacks no node (its direct attack budget
ceil(0.05 b) is non-positive, so the marking loop is empty), and the trial
still runs to completion on the untouched network, reporting fraction 0.
Non-numeric budgets are outside the typed embedding. -/
theorem C6_negative_budget_silent (adj : List (List ℕ)) (rng : ℕ → ℚ)
    (nodes : List Node) (d : ℤ) (b : ℚ) (hd : d < 0) (hb : b < 0)
    (hatt : ∀ nd ∈ nodes, nd.is_attacked = false)
    (hcomp : ∀ nd ∈ nodes, nd.is_compromised = false) :
    assign_defense_values nodes d = nodes ∧
    assign_attack_values nodes b = some nodes ∧
    deg_deg_trial adj rng nodes b = 0 := by
  refine ⟨?_, ?_, trial_no_attack_result adj rng nodes b hatt hcomp⟩
  · simp only [assign_defense_values]
    have hnotlt : ¬((nodes.length : ℤ) < d) := by
      have : (0 : ℤ) ≤ (nodes.length : ℤ) := by positivity
      omega
    rw [if_neg hnotlt]
    have hz : d.toNat = 0 := by omega
    rw [hz]
    simp
  · simp only [assign_attack_values]
    have hcle : calc_direct_attack_budget b ≤ 0 := by
      rw [calc_direct_attack_budget, Int.ceil_le]
      push_cast
      nlinarith
    have hz : (calc_direct_attack_budget b).toNat = 0 := by omega
    rw [hz]
    simp

/-- Witness for C6_negative_budget_silent on one fresh node with budgets
-5 and -10. -/
theorem C6_negative_budget_silent_witness :
    ((-5 : ℤ) < 0 ∧ (-10 : ℚ) < 0 ∧
      (∀ nd ∈ [freshNode], nd.is_attacked = false) ∧
      (∀ nd ∈ [freshNode], nd.is_compromised = false)) ∧
    (assign_defense_values [freshNode] (-5) = [freshNode] ∧
      assign_attack_values [freshNode] (-10) = some [freshNode] ∧
      deg_deg_trial [[]] rngZero [freshNode] (-10) = 0) :=
  ⟨⟨by decide, by norm_num, by decide, by decide⟩,
    C6_negative_budget_silent [[]] rngZero [freshNode] (-5) (-10)
      (by decide) (by norm_num) (by decide) (by decide)⟩

/-- C7: within a trial the per-node state is monotone.  From a post-allocation
state (nothing compromised, defenses in {0,1}): every node attacked at trial
start is still attacked at trial end; at every point of the spread loop — from
any state where compromised nodes are attacked — the attacked flag and the
compromised flag never revert from true to false; and the resolution events of
the whole run hit pairwise distinct nodes, so a node transitions
Attacked-to-Compromised at most once. -/
theorem C7_state_monotone (adj : List (List ℕ)) (rng : ℕ → ℚ) (nodes : List Node)
    (b : ℚ) (hdef : ∀ nd ∈ nodes, nd.defense_value ≤ 1)
    (hcomp : ∀ nd ∈ nodes, nd.is_compromised = false) :
    (∀ v, (getNode nodes v).is_attacked = true →
      (getNode (deg_deg_trial_run adj rng nodes b).nodes v).is_attacked = true) ∧
    (∀ (s : TrialState) (fuel : ℕ), compImpAtt s.nodes →
      (∀ v, (getNode s.nodes v).is_attacked = true →
        (getNode (spreadLoopFuel adj rng fuel s).nodes v).is_attacked = true) ∧
      (∀ v, (getNode s.nodes v).is_compromised = true →
        (getNode (spreadLoopFuel adj rng fuel s).nodes v).is_compromised = true)) ∧
    (resolvedTargets (deg_deg_trial_run adj rng nodes b).log).Nodup := by
  refine ⟨?_, ?_, ?_⟩
  · intro v hv
    simp only [deg_deg_trial_run, spreadLoop]
    apply spreadLoopFuel_att_mono
    rw [initial_attacked]
    exact hv
  · intro s fuel hca
    exact ⟨fun v hv => spreadLoopFuel_att_mono adj rng fuel s v hv,
      fun v hv => (spreadLoopFuel_comp adj rng fuel s hca).2 v hv⟩
  · have hinv : LoopInv (deg_deg_trial_run adj rng nodes b) := by
      simp only [deg_deg_trial_run, spreadLoop]
      exact spreadLoopFuel_inv adj rng _ _ (initial_inv rng nodes b hdef hcomp)
    exact hinv.lok.1

/-- Witness for C7 on a concrete two-node network with budget 40. -/
theorem C7_state_monotone_witness :
    ((∀ nd ∈ [cNodeHi, cNodeLo], nd.defense_value ≤ 1) ∧
      (∀ nd ∈ [cNodeHi, cNodeLo], nd.is_compromised = false)) ∧
    ((∀ v, (getNode [cNodeHi, cNodeLo] v).is_attacked = true →
      (getNode (deg_deg_trial_run [[], []] rngZero [cNodeHi, cNodeLo] 40).nodes
        v).is_attacked = true) ∧
    (∀ (s : TrialState) (fuel : ℕ), compImpAtt s.nodes →
      (∀ v, (getNode s.nodes v).is_attacked = true →
        (getNode (spreadLoopFuel [[], []] rngZero fuel s).nodes v).is_attacked = true) ∧
      (∀ v, (getNode s.nodes v).is_compromised = true →
        (getNode (spreadLoopFuel [[], []] rngZero fuel s).nodes v).is_compromised = true)) ∧
    (resolvedTargets
      (deg_deg_trial_run [[], []] rngZero [cNodeHi, cNodeLo] 40).log).Nodup) :=
  ⟨⟨by decide, by decide⟩,
    C7_state_monotone [[], []] rngZero [cNodeHi, cNodeLo] 40 (by decide) (by decide)⟩

/-- C8: once the continuation predicate has failed — the ledger is exhausted,
or (the documented half of the predicate) every node of the graph is already
compromised — the remainder of the spread loop never newly attacks any node:
the node states are left exactly as they were (pops may still drain the
queue), and the ledger is not charged again. -/
theorem C8_no_new_attacks (adj : List (List ℕ)) (rng : ℕ → ℚ) (s : TrialState)
    (hca : compImpAtt s.nodes)
    (hfail : s.budget ≤ 0 ∨
      ∀ v, v < s.nodes.length → (getNode s.nodes v).is_compromised = true) :
    (spreadLoop adj rng s).nodes = s.nodes ∧
    (spreadLoop adj rng s).budget = s.budget :=
  spreadLoopFuel_frozen adj rng _ s hca hfail

/-- Witness for C8: every node of c8State is compromised while budget remains,
and the loop leaves the node states and the ledger untouched. -/
theorem C8_no_new_attacks_witness :
    (compImpAtt c8State.nodes ∧
      (c8State.budget ≤ 0 ∨
        ∀ v, v < c8State.nodes.length →
          (getNode c8State.nodes v).is_compromised = true)) ∧
    ((spreadLoop [[]] rngZero c8State).nodes = c8State.nodes ∧
      (spreadLoop [[]] rngZero c8State).budget = c8State.budget) :=
  ⟨⟨compImpAtt_of_forall_mem _
        (by intro nd h; simp only [c8State] at h; rw [List.mem_singleton] at h; subst h; intro hx; rfl),
      Or.inr (by
        intro v hv
        have h0 : v = 0 := by
          simp [c8State, c8Node] at hv
          omega
        subst h0
        rfl)⟩,
    C8_no_new_attacks [[]] rngZero c8State
      (compImpAtt_of_forall_mem _
        (by intro nd h; simp only [c8State] at h; rw [List.mem_singleton] at h; subst h; intro hx; rfl))
      (Or.inr (by
        intro v hv
        have h0 : v = 0 := by
          simp [c8State, c8Node] at hv
          omega
        subst h0
        rfl))⟩

/-- C9: for every node list ranked by centrality descending, every
non-negative integer defense budget, and an all-undefended starting state,
assign_defense_values defends exactly min(budget, node count) nodes, leaves
every other node at defense 0 (node count unchanged), and every defended
node has centrality at least that of every undefended node. -/
theorem C9_defense_allocation (nodes : List Node) (d : ℤ) (hd : 0 ≤ d)
    (hsort : List.Pairwise
      (fun a b => b.centrality_value ≤ a.centrality_value) nodes)
    (hzero : ∀ nd ∈ nodes, nd.defense_value = 0) :
    ((assign_defense_values nodes d).countP
      (fun nd => decide (nd.defense_value = 1)) = min d.toNat nodes.length) ∧
    ((assign_defense_values nodes d).length = nodes.length) ∧
    (∀ nd ∈ assign_defense_values nodes d,
      nd.defense_value = 1 ∨ nd.defense_value = 0) ∧
    (∀ x ∈ assign_defense_values nodes d, ∀ y ∈ assign_defense_values nodes d,
      x.defense_value = 1 → y.defense_value = 0 →
      y.centrality_value ≤ x.centrality_value) := by
  simp only [assign_defense_values]
  set m : ℕ := (if (nodes.length : ℤ) < d then (nodes.length : ℤ) else d).toNat with hm
  have hmlen : m ≤ nodes.length := by
    rw [hm]
    split
    · omega
    · omega
  have hmmin : m = min d.toNat nodes.length := by
    rw [hm]
    split
    · omega
    · omega
  refine ⟨?_, ?_, ?_, ?_⟩
  · rw [List.countP_append, List.countP_map]
    have hc1 : List.countP ((fun nd => decide (nd.defense_value = 1)) ∘
        (fun nd => { nd with defense_value := 1 })) (nodes.take m) =
        (nodes.take m).length := by
      rw [List.countP_eq_length]
      intro a _
      simp
    have hc2 : List.countP (fun nd => decide (nd.defense_value = 1))
        (nodes.drop m) = 0 := by
      rw [List.countP_eq_zero]
      intro a ha
      simp [hzero a (List.mem_of_mem_drop ha)]
    rw [hc1, hc2, List.length_take]
    omega
  · rw [List.length_append, List.length_map, List.length_take, List.length_drop]
    omega
  · intro nd hnd
    rcases List.mem_append.mp hnd with h | h
    · left
      obtain ⟨a, _, rfl⟩ := List.mem_map.mp h
      rfl
    · right
      exact hzero nd (List.mem_of_mem_drop h)
  · intro x hx y hy hx1 hy0
    have hym : y ∈ nodes.drop m := by
      rcases List.mem_append.mp hy with h | h
      · obtain ⟨a, _, rfl⟩ := List.mem_map.mp h
        simp at hy0
      · exact h
    have hxm : ∃ a ∈ nodes.take m, x = { a with defense_value := 1 } := by
      rcases List.mem_append.mp hx with h | h
      · obtain ⟨a, ha, rfl⟩ := List.mem_map.mp h
        exact ⟨a, ha, rfl⟩
      · exfalso
        have := hzero x (List.mem_of_mem_drop h)
        omega
    obtain ⟨a, ha, rfl⟩ := hxm
    have hsort2 : List.Pairwise
        (fun p q => q.centrality_value ≤ p.centrality_value)
        (nodes.take m ++ nodes.drop m) := by
      rw [List.take_append_drop]
      exact hsort
    exact (List.pairwise_append.mp hsort2).2.2 a ha y hym

/-- Witness for C9 on a two-node centrality-descending list with budget 1. -/
theorem C9_defense_allocation_witness :
    ((0 : ℤ) ≤ 1 ∧
      List.Pairwise (fun a b => b.centrality_value ≤ a.centrality_value)
        [wNodeHi, wNodeLo] ∧
      (∀ nd ∈ [wNodeHi, wNodeLo], nd.defense_value = 0)) ∧
    (((assign_defense_values [wNodeHi, wNodeLo] 1).countP
      (fun nd => decide (nd.defense_value = 1)) =
        min (1 : ℤ).toNat ([wNodeHi, wNodeLo] : List Node).length) ∧
    ((assign_defense_values [wNodeHi, wNodeLo] 1).length =
      ([wNodeHi, wNodeLo] : List Node).length) ∧
    (∀ nd ∈ assign_defense_values [wNodeHi, wNodeLo] 1,
      nd.defense_value = 1 ∨ nd.defense_value = 0) ∧
    (∀ x ∈ assign_defense_values [wNodeHi, wNodeLo] 1,
      ∀ y ∈ assign_defense_values [wNodeHi, wNodeLo] 1,
      x.defense_value = 1 → y.defense_value = 0 →
      y.centrality_value ≤ x.centrality_value)) :=
  ⟨⟨by decide,
      by
        refine List.pairwise_cons.mpr ⟨?_, List.pairwise_singleton _ _⟩
        intro b hb
        rw [List.mem_singleton] at hb
        subst hb
        norm_num [wNodeHi, wNodeLo],
      by decide⟩,
    C9_defense_allocation [wNodeHi, wNodeLo] 1 (by decide)
      (by
        refine List.pairwise_cons.mpr ⟨?_, List.pairwise_singleton _ _⟩
        intro b hb
        rw [List.mem_singleton] at hb
        subst hb
        norm_num [wNodeHi, wNodeLo])
      (by decide)⟩

/-- C10: the attack budget ledger never goes negative.  For every non-negative
integer attack budget the initial deduction of ceil(0.05 b) leaves a
non-negative remainder; an indirect deduction is only ever made from a
strictly positive ledger (a non-positive ledger is never charged); the
non-negative half-integer ledger property is preserved by every step of the
spread loop; and the ledger at the end of a full trial is non-negative. -/
theorem C10_ledger_nonnegative (adj : List (List ℕ)) (rng : ℕ → ℚ)
    (nodes : List Node) (b : ℕ) :
    (0 ≤ (deg_deg_initial_attack rng nodes (b : ℚ)).budget) ∧
    (∀ (s : TrialState) (cur tgt : ℕ), s.budget ≤ 0 →
      (innerStep rng cur s tgt).budget = s.budget) ∧
    (∀ (s : TrialState) (cur tgt : ℕ), ledgerOk s.budget →
      ledgerOk (innerStep rng cur s tgt).budget) ∧
    (∀ (s : TrialState) (fuel : ℕ), ledgerOk s.budget →
      ledgerOk (spreadLoopFuel adj rng fuel s).budget) ∧
    (0 ≤ (deg_deg_trial_run adj rng nodes (b : ℚ)).budget) := by
  have hinit : ledgerOk (deg_deg_initial_attack rng nodes (b : ℚ)).budget := by
    rw [initial_budget]
    constructor
    · have h := calc_le_self_nat b
      have hq : ((calc_direct_attack_budget (b : ℚ)) : ℚ) ≤ (b : ℚ) := by
        exact_mod_cast h
      linarith
    · refine ⟨2 * ((b : ℤ) - calc_direct_attack_budget (b : ℚ)), ?_⟩
      push_cast
      ring
  refine ⟨hinit.1, ?_, ?_, ?_, ?_⟩
  · intro s cur tgt hb
    rw [innerStep_of_budget_nonpos rng cur s tgt hb]
  · exact fun s cur tgt h => innerStep_ledger rng cur s tgt h
  · exact fun s fuel h => spreadLoopFuel_ledger adj rng fuel s h
  · have hrun : ledgerOk (deg_deg_trial_run adj rng nodes (b : ℚ)).budget := by
      simp only [deg_deg_trial_run, spreadLoop]
      exact spreadLoopFuel_ledger adj rng _ _ hinit
    exact hrun.1

/-- Witness for C10 at budget 40 on the concrete two-node network, with the
inner quantified parts instantiated at a concrete ledger state. -/
theorem C10_ledger_nonnegative_witness :
    ledgerOk c2State.budget ∧
    (0 ≤ (deg_deg_initial_attack rngZero [cNodeHi, cNodeLo] ((40 : ℕ) : ℚ)).budget ∧
      ledgerOk (spreadLoopFuel [[], []] rngZero 3 c2State).budget ∧
      0 ≤ (deg_deg_trial_run [[], []] rngZero [cNodeHi, cNodeLo] ((40 : ℕ) : ℚ)).budget) :=
  ⟨⟨by norm_num [c2State], 76, by norm_num [c2State]⟩,
    (C10_ledger_nonnegative [[], []] rngZero [cNodeHi, cNodeLo] 40).1,
    (C10_ledger_nonnegative [[], []] rngZero [cNodeHi, cNodeLo] 40).2.2.2.1 c2State 3
      ⟨by norm_num [c2State], 76, by norm_num [c2State]⟩,
    (C10_ledger_nonnegative [[], []] rngZero [cNodeHi, cNodeLo] 40).2.2.2.2⟩

